import Mathlib

set_option linter.unusedSectionVars false

/-!
Verification development for the weighted partition allocator, hierarchical
distributor, access-grant sampler and statistics summarizer of
`src/distributions.py` and `src/generate_structure.py`.

Embedding conventions:
* numpy float weights are embedded as values of an arbitrary linear ordered
  field `α` with a floor (instantiated at `ℚ` for concrete evaluation and at
  `ℝ` for the Zipf weights, which use a real exponent);
* `np.random.pareto(alpha, k)` draws and `random.sample` / `random.randint`
  draws are injected explicitly as parameters (`samples`, `sample`, `sampleIds`),
  so each function is a pure function of its inputs plus the injected draws;
* numpy's `astype(int)` is truncation toward zero (`truncInt`);
* python `dict` is an association list with first-match lookup;
* python `raise ValueError` is `Except.error`.
-/

namespace Espresso

variable {α : Type} [LinearOrderedField α] [FloorRing α] {β : Type}

/-- numpy `astype(int)`: truncation toward zero. -/
def truncInt (x : α) : ℤ := if 0 ≤ x then ⌊x⌋ else -⌊-x⌋

/-- `distribution[j] += 1` (one iteration of the surplus loop). -/
def incAt : List ℤ → ℕ → List ℤ
  | [], _ => []
  | x :: xs, 0 => (x + 1) :: xs
  | x :: xs, j+1 => x :: incAt xs j

/-- `if distribution[j] > min_count: distribution[j] -= 1` (one iteration of
the deficit loop). -/
def decAtIfAbove (m : ℤ) : List ℤ → ℕ → List ℤ
  | [], _ => []
  | x :: xs, 0 => (if m < x then x - 1 else x) :: xs
  | x :: xs, j+1 => x :: decAtIfAbove m xs j

/-- `for i in range(t): distribution[f(i)] += 1`, starting at iteration
counter `i`. -/
def surplusLoop (f : ℕ → ℕ) : ℕ → List ℤ → ℕ → List ℤ
  | _, v, 0 => v
  | i, v, t+1 => surplusLoop f (i+1) (incAt v (f i)) t

/-- `for i in range(t): idx = f(i); if distribution[idx] > min_count:
distribution[idx] -= 1`, starting at iteration counter `i`. -/
def deficitLoop (m : ℤ) (f : ℕ → ℕ) : ℕ → List ℤ → ℕ → List ℤ
  | _, v, 0 => v
  | i, v, t+1 => deficitLoop m f (i+1) (decAtIfAbove m v (f i)) t

/-- Number of iterations `s ∈ [i, i+t)` whose target `f s` equals `j`. -/
def countHits (f : ℕ → ℕ) (j : ℕ) : ℕ → ℕ → ℕ
  | _, 0 => 0
  | i, t+1 => (if f i = j then 1 else 0) + countHits f j (i+1) t

/-- `weights = weights / weights.sum()`. -/
def normalize (w : List α) : List α := w.map (fun x => x / w.sum)

/-- `distribution = (weights * n).astype(int); distribution =
np.maximum(distribution, min_count)`. -/
def clampedCounts (w : List α) (n : ℕ) (m : ℤ) : List ℤ :=
  w.map (fun x => max (truncInt (x * (n : α))) m)

/-- Insert an index into an index list sorted by the comparator. -/
def insertSorted (le : ℕ → ℕ → Bool) (x : ℕ) : List ℕ → List ℕ
  | [] => [x]
  | y :: ys => if le x y then x :: y :: ys else y :: insertSorted le x ys

/-- Insertion sort on index lists. -/
def insertionSort (le : ℕ → ℕ → Bool) : List ℕ → List ℕ
  | [] => []
  | x :: xs => insertSorted le x (insertionSort le xs)

/-- `np.argsort(weights)` (ascending).  numpy's default quicksort leaves the
order of tied weights unspecified; an insertion sort realizes one admissible
order, and no theorem below depends on how ties are resolved. -/
def argsortAsc (w : List α) : List ℕ :=
  insertionSort (fun i j => decide (w.getD i 0 ≤ w.getD j 0)) (List.range w.length)

/-- `DistributionStrategies.uniform_distribution` of `src/distributions.py`:
`base = n // count; rem = n % count; d = [base]*count; for i in range(rem):
d[i] += 1`.  `n` is `len(items)`. -/
def bumpLoop (v : List ℕ) : ℕ → List ℕ
  | 0 => v
  | r+1 => (bumpLoop v r).set r ((bumpLoop v r).getD r 0 + 1)

def uniform_distribution (n count : ℕ) : List ℕ :=
  if count = 0 then []
  else bumpLoop (List.replicate count (n / count)) (n % count)

/-- `np.maximum(weights, 0.1)` applied to the raw Pareto draws. -/
def paretoWeightsRaw (samples : List α) : List α := samples.map (fun s => max s (1/10))

/-- The shared surplus/deficit correction step of `pareto_distribution` and
`zipf_distribution`: `diff = n - distribution.sum()`; if positive, add one
unit at a time at the surplus order `fSur`; if negative, remove one unit at a
time at the deficit order `fDef`, never dropping a bucket below `min_count`. -/
def applyCorrection (fSur fDef : ℕ → ℕ) (m : ℤ) (n : ℕ) (d : List ℤ) : List ℤ :=
  if 0 < (n : ℤ) - d.sum then surplusLoop fSur 0 d ((n : ℤ) - d.sum).toNat
  else if (n : ℤ) - d.sum < 0 then deficitLoop m fDef 0 d (-((n : ℤ) - d.sum)).toNat
  else d

/-- `DistributionStrategies.pareto_distribution` of `src/distributions.py`.
The Pareto draws `np.random.pareto(alpha, count)` are injected as `samples`
(with `count = samples.length`); the rest follows the source: floor the draws
at 0.1, normalize, truncate `weights * n`, clamp at `min_count`, then correct
the surplus (largest weights first) or the deficit (smallest weights first,
never below `min_count`). -/
def pareto_distribution (samples : List α) (n : ℕ) (m : ℤ) : List ℤ :=
  if samples.length = 0 then []
  else
    applyCorrection
      (fun i => (argsortAsc (normalize (paretoWeightsRaw samples))).reverse.getD
        (i % samples.length) 0)
      (fun i => (argsortAsc (normalize (paretoWeightsRaw samples))).getD (i % samples.length) 0)
      m n (clampedCounts (normalize (paretoWeightsRaw samples)) n m)

/-- The weight-generic body of `DistributionStrategies.zipf_distribution`:
normalize the weights, truncate `weights * n`, clamp at `min_count`, then
correct the surplus at indices `i % count` (lowest ranks first) or the
deficit at indices `count - 1 - (i % count)` (highest ranks first, never
below `min_count`). -/
def zipfCore (w : List α) (n : ℕ) (m : ℤ) : List ℤ :=
  if w.length = 0 then []
  else
    applyCorrection (fun i => i % w.length) (fun i => w.length - 1 - (i % w.length)) m n
      (clampedCounts (normalize w) n m)

/-- `ranks = np.arange(1, count+1); weights = 1 / np.power(ranks, alpha)`. -/
noncomputable def zipfWeights (alpha : ℝ) (count : ℕ) : List ℝ :=
  (List.range count).map (fun i : ℕ => 1 / ((i : ℝ) + 1) ^ alpha)

/-- `DistributionStrategies.zipf_distribution` of `src/distributions.py`. -/
noncomputable def zipf_distribution (alpha : ℝ) (count n : ℕ) (m : ℤ) : List ℤ :=
  zipfCore (zipfWeights alpha count) n m

/-- `DistributionStrategies.distribute_pods_to_servers`.  The result list of
per-server pod counts is `List ℤ` (python ints); the Pareto draws are the
injected `samples`. -/
noncomputable def distribute_pods_to_servers (samples : List ℝ) (num_servers pods_per_server : ℕ)
    (strategy : String) (alpha : ℝ) (min_pods_per_server : ℤ) : Except String (List ℤ) :=
  let total_pods := num_servers * pods_per_server
  if strategy = "uniform" then
    Except.ok ((uniform_distribution total_pods num_servers).map (fun c => (c : ℤ)))
  else if strategy = "pareto" then
    Except.ok (pareto_distribution samples total_pods min_pods_per_server)
  else if strategy = "zipf" then
    Except.ok (zipf_distribution alpha num_servers total_pods min_pods_per_server)
  else Except.error ("Unknown distribution strategy: " ++ strategy)

/-- Per-pod file counts in the `uniform` branch of `distribute_files_to_pods`:
`files_for_pod = files_per_pod + (1 if remainder > 0 else 0)` with the
remainder decremented while positive, walked over `t` pods. -/
def uniformPodCounts (base : ℕ) : ℕ → ℕ → List ℕ
  | _, 0 => []
  | rem, t+1 => (base + if 0 < rem then 1 else 0) :: uniformPodCounts base (rem - 1) t

/-- The `(server_id, pod_id)` keys in bucket-walk order:
`for server_id, pod_count in enumerate(pod_counts, 1): for pod_id in
range(1, pod_count + 1)`. -/
def podKeys (pod_counts : List ℕ) : List (ℕ × ℕ) :=
  (pod_counts.enum.map (fun sp => (List.range sp.2).map (fun p => (sp.1 + 1, p + 1)))).flatten

/-- Successive contiguous slices `source_files[idx : idx + c]` for the given
counts, advancing `idx` by `c` each time. -/
def slicesFrom : List β → List ℕ → List (List β)
  | _, [] => []
  | fs, c :: cs => fs.take c :: slicesFrom (fs.drop c) cs

/-- The `uniform` branch of `DistributionStrategies.distribute_files_to_pods`:
the dict mapping `(server_id, pod_id)` to its contiguous slice of
`source_files`, in insertion (bucket-walk) order. -/
def dftp_uniform (files : List β) (pod_counts : List ℕ) : List ((ℕ × ℕ) × List β) :=
  let total := pod_counts.sum
  (podKeys pod_counts).zip
    (slicesFrom files (uniformPodCounts (files.length / total) (files.length % total) total))

/-- Slice `files` according to an integer count vector (python slices with the
nonnegative counts produced by the allocator). -/
def dftp_weighted (counts : List ℤ) (files : List β) (pod_counts : List ℕ) :
    List ((ℕ × ℕ) × List β) :=
  (podKeys pod_counts).zip (slicesFrom files (counts.map Int.toNat))

/-- The `pareto` branch of `distribute_files_to_pods`: the allocator is run
over `total_pods = sum(pod_counts)` buckets (the injected draws `samples`
have that length in any real call) and `n = len(source_files)`. -/
def dftp_pareto (samples : List α) (files : List β) (pod_counts : List ℕ) (m : ℤ) :
    List ((ℕ × ℕ) × List β) :=
  dftp_weighted (pareto_distribution samples files.length m) files pod_counts

/-- The `zipf` branch of `distribute_files_to_pods`. -/
noncomputable def dftp_zipf (alpha : ℝ) (files : List β) (pod_counts : List ℕ) (m : ℤ) :
    List ((ℕ × ℕ) × List β) :=
  dftp_weighted (zipf_distribution alpha pod_counts.sum files.length m) files pod_counts

/-- `DistributionStrategies.distribute_files_to_pods` of
`src/distributions.py`. -/
noncomputable def distribute_files_to_pods (samples : List ℝ) (alpha : ℝ) (files : List β)
    (pod_counts : List ℕ) (strategy : String) (min_files_per_pod : ℤ) :
    Except String (List ((ℕ × ℕ) × List β)) :=
  if strategy = "uniform" then Except.ok (dftp_uniform files pod_counts)
  else if strategy = "pareto" then
    Except.ok (dftp_pareto samples files pod_counts min_files_per_pod)
  else if strategy = "zipf" then
    Except.ok (dftp_zipf alpha files pod_counts min_files_per_pod)
  else Except.error ("Unknown distribution strategy: " ++ strategy)

/-! ### Statistics summarizer (`get_distribution_stats`) -/

/-- The statistics record returned by
`DistributionStrategies.get_distribution_stats`. -/
structure DistStats where
  total_servers : ℕ
  total_pods : ℕ
  total_files : ℕ
  min_files_per_pod : ℕ
  max_files_per_pod : ℕ
  avg_files_per_pod : ℚ
  std_dev_files : ℝ
  min_pods_per_server : ℕ
  max_pods_per_server : ℕ
  avg_pods_per_server : ℚ
  std_dev_pods : ℝ

/-- python `min(l)`: raises on an empty list. -/
def pyMin (l : List ℕ) : Except String ℕ :=
  match l.min? with
  | some v => Except.ok v
  | none => Except.error "min() arg is an empty sequence"

/-- python `max(l)`: raises on an empty list. -/
def pyMax (l : List ℕ) : Except String ℕ :=
  match l.max? with
  | some v => Except.ok v
  | none => Except.error "max() arg is an empty sequence"

/-- `np.std(l)` — population standard deviation. -/
noncomputable def npStd (l : List ℕ) : ℝ :=
  Real.sqrt ((l.map (fun x => ((x : ℝ) - (l.sum : ℝ) / l.length) ^ 2)).sum / l.length)

/-- `DistributionStrategies.get_distribution_stats` of `src/distributions.py`.
The distribution dict is the association list produced by
`distribute_files_to_pods`; every `min`/`max`/division over a possibly empty
collection is guarded by the `if ... else 0` conditionals of the source. -/
noncomputable def get_distribution_stats (dist : List ((ℕ × ℕ) × List β)) :
    Except String DistStats := do
  let file_counts := dist.map (fun p => p.2.length)
  let servers := (dist.map (fun p => p.1.1)).dedup
  let pod_counts := servers.map (fun s => (dist.filter (fun p => decide (p.1.1 = s))).length)
  let minf ← if file_counts = [] then Except.ok 0 else pyMin file_counts
  let maxf ← if file_counts = [] then Except.ok 0 else pyMax file_counts
  let minp ← if pod_counts = [] then Except.ok 0 else pyMin pod_counts
  let maxp ← if pod_counts = [] then Except.ok 0 else pyMax pod_counts
  Except.ok
    { total_servers := servers.length
      total_pods := dist.length
      total_files := file_counts.sum
      min_files_per_pod := minf
      max_files_per_pod := maxf
      avg_files_per_pod := if file_counts = [] then 0 else (file_counts.sum : ℚ) / file_counts.length
      std_dev_files := if file_counts = [] then 0 else npStd file_counts
      min_pods_per_server := minp
      max_pods_per_server := maxp
      avg_pods_per_server := if pod_counts = [] then 0 else (pod_counts.sum : ℚ) / pod_counts.length
      std_dev_pods := if pod_counts = [] then 0 else npStd pod_counts }

/-- The all-zero statistics record. -/
def zeroStats : DistStats := ⟨0, 0, 0, 0, 0, 0, 0, 0, 0, 0, 0⟩

/-! ### Access grant sampler (`src/generate_structure.py`) -/

/-- A social agent as built by `init_sanode_list`, with the `power` key
present (as it always is for the agents this repository builds: the source
sets `"power": str(percs[i])` for every social agent).  `some p` is a field
value that `int()` parses to `p`; `none` is a present but unparsable value —
the caught `ValueError`/`TypeError` branch of the source.  A *missing*
`power` key is a different path: `agent['power']` raises `KeyError`, which
the `except` clause does not catch; that case is modelled by `RawAgent` and
`imagineaclspecialRaw` below. -/
structure Agent where
  webid : String
  power : Option ℤ

/-- `try: power = int(agent['power']) except (ValueError, TypeError):
power = 0`, for an agent whose `power` key is present. -/
def powerOf (a : Agent) : ℤ :=
  match a.power with
  | some p => p
  | none => 0

/-- The dynamic content of `agent['power']` before parsing: the key can be
missing entirely (`agent['power']` raises `KeyError`), present but not
parsable as an integer (`int()` raises `ValueError` or `TypeError`), or
present with an integer value. -/
inductive PowerField
  | missing
  | unparsable
  | intval (p : ℤ)

/-- A social agent record as `imagineaclspecial` receives it, with the raw
`power` field. -/
structure RawAgent where
  webid : String
  power : PowerField

/-- `try: power = int(agent['power']) except (ValueError, TypeError):
power = 0` with the dict access modelled fallibly: the `KeyError` of a
missing key is not among the caught exception types, so it propagates. -/
def readPower : PowerField → Except String ℤ
  | PowerField.missing => Except.error "KeyError: power"
  | PowerField.unparsable => Except.ok 0
  | PowerField.intval p => Except.ok p

/-- `num_files_to_access = math.floor(len(files) * (power / 100))`. -/
def numFilesToAccess (numFiles : ℕ) (power : ℤ) : ℤ :=
  ⌊((numFiles : ℚ) * ((power : ℚ) / 100))⌋

/-- python dict lookup on the access-control map (first matching key). -/
def acLookup : List (String × List String) → String → Option (List String)
  | [], _ => none
  | p :: rest, k => if p.1 = k then some p.2 else acLookup rest k

/-- python dict assignment `acm[k] = v`: replace the entry if the key is
present, append it otherwise. -/
def acSet : List (String × List String) → String → List String → List (String × List String)
  | [], k, v => [(k, v)]
  | p :: rest, k, v => if p.1 = k then (k, v) :: rest else p :: acSet rest k v

/-- `acm[k].append/extend(ids)`.  In the source the key is always present
when this runs (every destination was seeded first and the sampled files are
drawn from the seeded list), so the missing-key case — a python `KeyError` —
is unreachable and embedded as a no-op. -/
def acExtend : List (String × List String) → String → List String → List (String × List String)
  | [], _, _ => []
  | p :: rest, k, ids => if p.1 = k then (p.1, p.2 ++ ids) :: rest else p :: acExtend rest k ids

/-- The seeding loop of `imagineaclspecial`: `for source, dest in files:
access_control[str(dest)] = []`.  File mappings are `(source, dest)` pairs
with the destination path rendered as a string key. -/
def seedAccessControl (files : List (β × String)) : List (String × List String) :=
  files.foldl (fun m sd => acSet m sd.2 []) []

/-- The per-agent body of `imagineaclspecial`: parse the power, compute
`num_files_to_access`, and if positive grant the agent's webid on each
sampled file's destination.  The draw `random.sample(files,
num_files_to_access)` is injected as `sample a`. -/
def agentStep (files : List (β × String)) (sample : Agent → List (β × String))
    (m : List (String × List String)) (a : Agent) : List (String × List String) :=
  if 0 < numFilesToAccess files.length (powerOf a) then
    (sample a).foldl (fun m2 sd => acExtend m2 sd.2 [a.webid]) m
  else m

/-- `imagineaclspecial` of `src/generate_structure.py`: seed every
destination with an empty grant list, then process each social agent.  This
form assumes every agent's `power` key is present (always true for the
agents this repository builds); `imagineaclspecialRaw` below models the
fallible field access and agrees with this one on such agents
(`imagineaclspecialRaw_eq_ok`). -/
def imagineaclspecial (files : List (β × String)) (social_agents : List Agent)
    (sample : Agent → List (β × String)) : List (String × List String) :=
  social_agents.foldl (agentStep files sample) (seedAccessControl files)

/-- The per-agent body of `imagineaclspecial` with the fallible
`agent['power']` access: a missing key propagates its `KeyError`, an
unparsable value is caught and clamped to 0, and a parsed power grants the
agent's webid on each sampled file's destination. -/
def agentStepRaw (files : List (β × String)) (sample : RawAgent → List (β × String))
    (m : List (String × List String)) (a : RawAgent) :
    Except String (List (String × List String)) :=
  match readPower a.power with
  | Except.error e => Except.error e
  | Except.ok power =>
    if 0 < numFilesToAccess files.length power then
      Except.ok ((sample a).foldl (fun m2 sd => acExtend m2 sd.2 [a.webid]) m)
    else Except.ok m

/-- The agent loop of `imagineaclspecial` with exception propagation: the
first uncaught `KeyError` aborts the call. -/
def aclFoldRaw (files : List (β × String)) (sample : RawAgent → List (β × String)) :
    List (String × List String) → List RawAgent → Except String (List (String × List String))
  | m, [] => Except.ok m
  | m, a :: rest =>
    match agentStepRaw files sample m a with
    | Except.error e => Except.error e
    | Except.ok m2 => aclFoldRaw files sample m2 rest

/-- `imagineaclspecial` with the `agent['power']` dict access modelled
fallibly: seed every destination, then process the agents, aborting with the
uncaught `KeyError` if some agent's `power` key is missing. -/
def imagineaclspecialRaw (files : List (β × String)) (social_agents : List RawAgent)
    (sample : RawAgent → List (β × String)) : Except String (List (String × List String)) :=
  aclFoldRaw files sample (seedAccessControl files) social_agents

/-- Forget the raw field of an agent whose `power` key is present: a parsed
value stays, an unparsable one becomes the clamped `none`. -/
def RawAgent.toAgent (a : RawAgent) : Agent :=
  ⟨a.webid, match a.power with
    | PowerField.intval p => some p
    | _ => none⟩

/-- One iteration of the regular-identity grant loop in `distribute_files`:
`if dest not in access_control: access_control[dest] = []` followed by
`access_control[dest].extend(random.sample(web_ids, randint(1, len(web_ids))))`.
The drawn id subset is injected as `sampleIds sd`. -/
def regularStep (sampleIds : β × String → List String)
    (m : List (String × List String)) (sd : β × String) : List (String × List String) :=
  acExtend (if (acLookup m sd.2).isSome then m else acSet m sd.2 []) sd.2 (sampleIds sd)

/-- The regular-identity grant pass of `distribute_files`
(`src/generate_structure.py`, the loop following `imagineaclspecial`). -/
def grantRegular (file_mappings : List (β × String))
    (sampleIds : β × String → List String)
    (acm : List (String × List String)) : List (String × List String) :=
  file_mappings.foldl (regularStep sampleIds) acm

/-! ## Lemmas about the correction loops -/

theorem length_incAt (v : List ℤ) (j : ℕ) : (incAt v j).length = v.length := by
  induction v generalizing j with
  | nil => rfl
  | cons x xs ih =>
    cases j with
    | zero => rfl
    | succ j => simp [incAt, ih]

theorem length_decAtIfAbove (m : ℤ) (v : List ℤ) (j : ℕ) :
    (decAtIfAbove m v j).length = v.length := by
  induction v generalizing j with
  | nil => rfl
  | cons x xs ih =>
    cases j with
    | zero => simp [decAtIfAbove]
    | succ j => simp [decAtIfAbove, ih]

theorem getD_incAt_ne (v : List ℤ) {i j : ℕ} (h : i ≠ j) :
    (incAt v j).getD i 0 = v.getD i 0 := by
  induction v generalizing i j with
  | nil => rfl
  | cons x xs ih =>
    cases j with
    | zero =>
      cases i with
      | zero => exact absurd rfl h
      | succ i => simp [incAt]
    | succ j =>
      cases i with
      | zero => simp [incAt]
      | succ i => simpa [incAt] using ih (by omega)

theorem getD_incAt_self (v : List ℤ) {j : ℕ} (h : j < v.length) :
    (incAt v j).getD j 0 = v.getD j 0 + 1 := by
  induction v generalizing j with
  | nil => simp at h
  | cons x xs ih =>
    cases j with
    | zero => simp [incAt]
    | succ j => simpa [incAt] using ih (by simpa using h)

theorem sum_incAt (v : List ℤ) {j : ℕ} (h : j < v.length) :
    (incAt v j).sum = v.sum + 1 := by
  induction v generalizing j with
  | nil => simp at h
  | cons x xs ih =>
    cases j with
    | zero => simp [incAt]; ring
    | succ j =>
      have := ih (by simpa using h)
      simp [incAt, this]
      ring

theorem getD_decAtIfAbove_ne (m : ℤ) (v : List ℤ) {i j : ℕ} (h : i ≠ j) :
    (decAtIfAbove m v j).getD i 0 = v.getD i 0 := by
  induction v generalizing i j with
  | nil => rfl
  | cons x xs ih =>
    cases j with
    | zero =>
      cases i with
      | zero => exact absurd rfl h
      | succ i => simp [decAtIfAbove]
    | succ j =>
      cases i with
      | zero => simp [decAtIfAbove]
      | succ i => simpa [decAtIfAbove] using ih (by omega)

theorem getD_decAtIfAbove_self (m : ℤ) (v : List ℤ) {j : ℕ} (h : j < v.length)
    (hm : m ≤ v.getD j 0) : (decAtIfAbove m v j).getD j 0 = max m (v.getD j 0 - 1) := by
  induction v generalizing j with
  | nil => simp at h
  | cons x xs ih =>
    cases j with
    | zero =>
      simp only [List.getD_cons_zero] at hm ⊢
      by_cases hx : m < x
      · simp [decAtIfAbove, hx]
        omega
      · simp [decAtIfAbove, hx]
        omega
    | succ j =>
      have := ih (by simpa using h) (by simpa using hm)
      simpa [decAtIfAbove] using this

theorem sum_decAtIfAbove_ge (m : ℤ) (v : List ℤ) (j : ℕ) :
    v.sum - 1 ≤ (decAtIfAbove m v j).sum := by
  induction v generalizing j with
  | nil => simp [decAtIfAbove]
  | cons x xs ih =>
    cases j with
    | zero =>
      by_cases hx : m < x
      · simp [decAtIfAbove, hx]
        omega
      · simp [decAtIfAbove, hx]
    | succ j =>
      have := ih j
      simp only [decAtIfAbove, List.sum_cons]
      omega

theorem mem_incAt_ge (v : List ℤ) (j : ℕ) (c : ℤ) (h : ∀ x ∈ v, c ≤ x) :
    ∀ x ∈ incAt v j, c ≤ x := by
  induction v generalizing j with
  | nil => simp [incAt]
  | cons y ys ih =>
    cases j with
    | zero =>
      intro x hx
      rcases List.mem_cons.mp hx with h1 | h1
      · have := h y (by simp)
        omega
      · exact h x (List.mem_cons_of_mem _ h1)
    | succ j =>
      intro x hx
      rcases List.mem_cons.mp hx with h1 | h1
      · exact h1 ▸ h y (by simp)
      · exact ih j (fun z hz => h z (List.mem_cons_of_mem _ hz)) x h1

theorem mem_decAtIfAbove_ge (m : ℤ) (v : List ℤ) (j : ℕ) (h : ∀ x ∈ v, m ≤ x) :
    ∀ x ∈ decAtIfAbove m v j, m ≤ x := by
  induction v generalizing j with
  | nil => simp [decAtIfAbove]
  | cons y ys ih =>
    cases j with
    | zero =>
      intro x hx
      rcases List.mem_cons.mp hx with h1 | h1
      · subst h1
        by_cases hy : m < y
        · simp [hy]
          omega
        · simp [hy]
          exact h y (by simp)
      · exact h x (List.mem_cons_of_mem _ h1)
    | succ j =>
      intro x hx
      rcases List.mem_cons.mp hx with h1 | h1
      · exact h1 ▸ h y (by simp)
      · exact ih j (fun z hz => h z (List.mem_cons_of_mem _ hz)) x h1

theorem length_surplusLoop (f : ℕ → ℕ) (i : ℕ) (v : List ℤ) (t : ℕ) :
    (surplusLoop f i v t).length = v.length := by
  induction t generalizing i v with
  | zero => rfl
  | succ t ih => simp [surplusLoop, ih, length_incAt]

theorem length_deficitLoop (m : ℤ) (f : ℕ → ℕ) (i : ℕ) (v : List ℤ) (t : ℕ) :
    (deficitLoop m f i v t).length = v.length := by
  induction t generalizing i v with
  | zero => rfl
  | succ t ih => simp [deficitLoop, ih, length_decAtIfAbove]

theorem sum_surplusLoop (f : ℕ → ℕ) (i : ℕ) (v : List ℤ) (t : ℕ)
    (hf : ∀ s, f s < v.length) : (surplusLoop f i v t).sum = v.sum + t := by
  induction t generalizing i v with
  | zero => simp [surplusLoop]
  | succ t ih =>
    have hlen : (incAt v (f i)).length = v.length := length_incAt v (f i)
    have := ih (i+1) (incAt v (f i)) (fun s => hlen ▸ hf s)
    simp only [surplusLoop, this, sum_incAt v (hf i)]
    push_cast
    ring

theorem sum_deficitLoop_ge (m : ℤ) (f : ℕ → ℕ) (i : ℕ) (v : List ℤ) (t : ℕ) :
    v.sum - t ≤ (deficitLoop m f i v t).sum := by
  induction t generalizing i v with
  | zero => simp [deficitLoop]
  | succ t ih =>
    have h1 := sum_decAtIfAbove_ge m v (f i)
    have h2 := ih (i+1) (decAtIfAbove m v (f i))
    simp only [deficitLoop]
    push_cast at h2 ⊢
    omega

theorem mem_surplusLoop_ge (f : ℕ → ℕ) (i : ℕ) (v : List ℤ) (t : ℕ) (c : ℤ)
    (h : ∀ x ∈ v, c ≤ x) : ∀ x ∈ surplusLoop f i v t, c ≤ x := by
  induction t generalizing i v with
  | zero => simpa [surplusLoop] using h
  | succ t ih => exact ih (i+1) _ (mem_incAt_ge v (f i) c h)

theorem mem_deficitLoop_ge (m : ℤ) (f : ℕ → ℕ) (i : ℕ) (v : List ℤ) (t : ℕ)
    (h : ∀ x ∈ v, m ≤ x) : ∀ x ∈ deficitLoop m f i v t, m ≤ x := by
  induction t generalizing i v with
  | zero => simpa [deficitLoop] using h
  | succ t ih => exact ih (i+1) _ (mem_decAtIfAbove_ge m v (f i) h)

theorem getD_surplusLoop (f : ℕ → ℕ) (i : ℕ) (v : List ℤ) (t : ℕ) {j : ℕ}
    (hj : j < v.length) :
    (surplusLoop f i v t).getD j 0 = v.getD j 0 + (countHits f j i t : ℤ) := by
  induction t generalizing i v with
  | zero => simp [surplusLoop, countHits]
  | succ t ih =>
    have hlen : (incAt v (f i)).length = v.length := length_incAt v (f i)
    have h2 := ih (i+1) (incAt v (f i)) (hlen ▸ hj)
    simp only [surplusLoop, h2, countHits]
    by_cases hfi : f i = j
    · have hv : (incAt v (f i)).getD j 0 = v.getD j 0 + 1 := by
        rw [hfi]
        exact getD_incAt_self v hj
      rw [hv, if_pos hfi]
      push_cast
      ring
    · rw [getD_incAt_ne v (fun hh => hfi hh.symm), if_neg hfi]
      push_cast
      ring

theorem getD_deficitLoop (m : ℤ) (f : ℕ → ℕ) (i : ℕ) (v : List ℤ) (t : ℕ) {j : ℕ}
    (hj : j < v.length) (hm : m ≤ v.getD j 0) :
    (deficitLoop m f i v t).getD j 0 = max m (v.getD j 0 - (countHits f j i t : ℤ)) := by
  induction t generalizing i v with
  | zero =>
    simp only [deficitLoop, countHits, Nat.cast_zero, sub_zero]
    omega
  | succ t ih =>
    have hlen : (decAtIfAbove m v (f i)).length = v.length := length_decAtIfAbove m v (f i)
    by_cases hfi : f i = j
    · have hval : (decAtIfAbove m v (f i)).getD j 0 = max m (v.getD j 0 - 1) := by
        rw [hfi]
        exact getD_decAtIfAbove_self m v hj hm
      have h2 := ih (i+1) (decAtIfAbove m v (f i)) (hlen ▸ hj) (by rw [hval]; exact le_max_left _ _)
      simp only [deficitLoop]
      rw [h2, hval]
      simp only [countHits]
      rw [if_pos hfi]
      push_cast
      omega
    · have hval : (decAtIfAbove m v (f i)).getD j 0 = v.getD j 0 :=
        getD_decAtIfAbove_ne m v (fun hh => hfi hh.symm)
      have h2 := ih (i+1) (decAtIfAbove m v (f i)) (hlen ▸ hj) (by rw [hval]; exact hm)
      simp only [deficitLoop]
      rw [h2, hval]
      simp only [countHits]
      rw [if_neg hfi]
      push_cast
      omega

theorem countHits_succ_end (f : ℕ → ℕ) (j i t : ℕ) :
    countHits f j i (t+1) = countHits f j i t + (if f (i + t) = j then 1 else 0) := by
  induction t generalizing i with
  | zero => simp [countHits]
  | succ t ih =>
    have h1 : countHits f j i (t+1+1) = (if f i = j then 1 else 0) + countHits f j (i+1) (t+1) :=
      rfl
    rw [h1, ih (i+1)]
    have h2 : countHits f j i (t+1) = (if f i = j then 1 else 0) + countHits f j (i+1) t := rfl
    rw [h2]
    have : i + 1 + t = i + (t + 1) := by omega
    rw [this]
    omega

theorem countHits_congr (f g : ℕ → ℕ) (j j' i t : ℕ)
    (h : ∀ s, f s = j ↔ g s = j') : countHits f j i t = countHits g j' i t := by
  induction t generalizing i with
  | zero => rfl
  | succ t ih =>
    simp only [countHits, ih (i+1)]
    by_cases hs : f i = j
    · rw [if_pos hs, if_pos ((h i).mp hs)]
    · rw [if_neg hs, if_neg (fun hc => hs ((h i).mpr hc))]

/-- Closed form for the number of hits of the cyclic order `i % k` on index
`j < k` over the first `t` iterations. -/
theorem countHits_mod (k t j : ℕ) (hk : 0 < k) (hj : j < k) :
    countHits (fun s => s % k) j 0 t = t / k + (if j < t % k then 1 else 0) := by
  induction t with
  | zero => simp [countHits]
  | succ t ih =>
    rw [countHits_succ_end, ih]
    simp only [Nat.zero_add]
    have hq : t / k * k + t % k = t := by
      rw [Nat.mul_comm]
      exact Nat.div_add_mod t k
    have hcomm : t + 1 = (t % k + 1) + (t / k) * k := by
      omega
    rcases Nat.lt_or_ge (t % k + 1) k with hr | hr
    · have hdiv : (t + 1) / k = t / k := by
        rw [hcomm, Nat.add_mul_div_right _ _ hk, Nat.div_eq_of_lt hr]
        omega
      have hmod : (t + 1) % k = t % k + 1 := by
        rw [hcomm, Nat.add_mul_mod_self_right, Nat.mod_eq_of_lt hr]
      rw [hdiv, hmod]
      by_cases hm : t % k = j
      · rw [if_pos hm, if_neg (by omega), if_pos (by omega)]
      · rw [if_neg hm]
        by_cases hj2 : j < t % k
        · rw [if_pos hj2, if_pos (by omega)]
        · rw [if_neg hj2, if_neg (by omega)]
    · have hrk : t % k + 1 = k := by
        have := Nat.mod_lt t hk
        omega
      have hcomm2 : t + 1 = (t / k + 1) * k := by
        rw [Nat.succ_mul]
        omega
      have hdiv : (t + 1) / k = t / k + 1 := by
        rw [hcomm2, Nat.mul_div_cancel _ hk]
      have hmod : (t + 1) % k = 0 := by
        rw [hcomm2, Nat.mul_mod_left]
      rw [hdiv, hmod]
      by_cases hm : t % k = j
      · rw [if_pos hm, if_neg (by omega), if_neg (by omega)]
      · rw [if_neg hm, if_pos (by omega), if_neg (by omega)]

/-! ## Lemmas about the allocator building blocks -/

theorem length_clampedCounts (w : List α) (n : ℕ) (m : ℤ) :
    (clampedCounts w n m).length = w.length := by
  simp [clampedCounts]

theorem length_normalize (w : List α) : (normalize w).length = w.length := by
  simp [normalize]

theorem getD_clampedCounts (w : List α) (n : ℕ) (m : ℤ) {j : ℕ} (hj : j < w.length) :
    (clampedCounts w n m).getD j 0 = max (truncInt (w.getD j 0 * (n : α))) m := by
  unfold clampedCounts
  rw [List.getD_eq_getElem _ _ (by simpa using hj), List.getElem_map,
    List.getD_eq_getElem _ _ hj]

theorem getD_normalize (w : List α) {j : ℕ} (hj : j < w.length) :
    (normalize w).getD j 0 = w.getD j 0 / w.sum := by
  unfold normalize
  rw [List.getD_eq_getElem _ _ (by simpa using hj), List.getElem_map,
    List.getD_eq_getElem _ _ hj]

theorem mem_clampedCounts_ge (w : List α) (n : ℕ) (m : ℤ) :
    ∀ x ∈ clampedCounts w n m, m ≤ x := by
  intro x hx
  rcases List.mem_map.mp hx with ⟨y, _, rfl⟩
  exact le_max_right _ _

theorem truncInt_nonneg {x : α} (h : 0 ≤ x) : 0 ≤ truncInt x := by
  unfold truncInt
  rw [if_pos h]
  exact Int.floor_nonneg.mpr h

theorem truncInt_cast_le {x : α} (h : 0 ≤ x) : ((truncInt x : ℤ) : α) ≤ x := by
  unfold truncInt
  rw [if_pos h]
  exact Int.floor_le x

theorem truncInt_mono {x y : α} (hx : 0 ≤ x) (hxy : x ≤ y) : truncInt x ≤ truncInt y := by
  unfold truncInt
  rw [if_pos hx, if_pos (hx.trans hxy)]
  exact Int.floor_le_floor hxy

theorem mem_clampedCounts_nonneg (w : List α) (n : ℕ) (m : ℤ) (hw : ∀ x ∈ w, 0 ≤ x) :
    ∀ x ∈ clampedCounts w n m, 0 ≤ x := by
  intro x hx
  rcases List.mem_map.mp hx with ⟨y, hy, rfl⟩
  exact le_trans (truncInt_nonneg (mul_nonneg (hw y hy) (Nat.cast_nonneg n))) (le_max_left _ _)

theorem sum_map_div (l : List α) (c : α) : (l.map (fun x => x / c)).sum = l.sum / c := by
  induction l with
  | nil => simp
  | cons a t ih => simp [ih, add_div]

theorem sum_map_mul_right (l : List α) (c : α) : (l.map (fun x => x * c)).sum = l.sum * c := by
  induction l with
  | nil => simp
  | cons a t ih => simp [ih, add_mul]

theorem sum_normalize (w : List α) (h : w.sum ≠ 0) : (normalize w).sum = 1 := by
  unfold normalize
  rw [sum_map_div, div_self h]

theorem mem_normalize_nonneg (w : List α) (hw : ∀ x ∈ w, 0 ≤ x) (hs : 0 ≤ w.sum) :
    ∀ x ∈ normalize w, 0 ≤ x := by
  intro x hx
  rcases List.mem_map.mp hx with ⟨y, hy, rfl⟩
  exact div_nonneg (hw y hy) hs

theorem clampedCounts_sum_le (w : List α) (n : ℕ) (m : ℤ) (hm : m ≤ 0)
    (hw : ∀ x ∈ w, 0 ≤ x) (hsum : w.sum = 1) : (clampedCounts w n m).sum ≤ (n : ℤ) := by
  have h1 : clampedCounts w n m = w.map (fun x => truncInt (x * (n : α))) := by
    unfold clampedCounts
    apply List.map_congr_left
    intro x hx
    exact max_eq_left
      (le_trans hm (truncInt_nonneg (mul_nonneg (hw x hx) (Nat.cast_nonneg n))))
  have h2 : (((w.map (fun x => truncInt (x * (n : α)))).sum : ℤ) : α) ≤ (n : α) := by
    rw [Int.cast_list_sum, List.map_map]
    have h3 : (w.map (Int.cast ∘ fun x => truncInt (x * (n : α)))).sum
        ≤ (w.map (fun x => x * (n : α))).sum := by
      apply List.sum_le_sum
      intro x hx
      exact truncInt_cast_le (mul_nonneg (hw x hx) (Nat.cast_nonneg n))
    calc (w.map (Int.cast ∘ fun x => truncInt (x * (n : α)))).sum
        ≤ (w.map (fun x => x * (n : α))).sum := h3
      _ = w.sum * (n : α) := sum_map_mul_right w _
      _ = (n : α) := by rw [hsum, one_mul]
  rw [h1]
  exact_mod_cast h2

theorem length_insertSorted (le : ℕ → ℕ → Bool) (x : ℕ) (l : List ℕ) :
    (insertSorted le x l).length = l.length + 1 := by
  induction l with
  | nil => rfl
  | cons y ys ih =>
    by_cases h : le x y
    · simp [insertSorted, h]
    · simp [insertSorted, h, ih]

theorem mem_insertSorted (le : ℕ → ℕ → Bool) (x : ℕ) (l : List ℕ) (y : ℕ) :
    y ∈ insertSorted le x l ↔ y = x ∨ y ∈ l := by
  induction l with
  | nil => simp [insertSorted]
  | cons z zs ih =>
    by_cases h : le x z
    · simp [insertSorted, h]
    · simp only [insertSorted, if_neg h, List.mem_cons, ih]
      tauto

theorem length_insertionSort (le : ℕ → ℕ → Bool) (l : List ℕ) :
    (insertionSort le l).length = l.length := by
  induction l with
  | nil => rfl
  | cons x xs ih => simp [insertionSort, length_insertSorted, ih]

theorem mem_insertionSort (le : ℕ → ℕ → Bool) (l : List ℕ) (y : ℕ) :
    y ∈ insertionSort le l ↔ y ∈ l := by
  induction l with
  | nil => simp [insertionSort]
  | cons x xs ih =>
    simp only [insertionSort, mem_insertSorted, List.mem_cons, ih]

theorem length_argsortAsc (w : List α) : (argsortAsc w).length = w.length := by
  unfold argsortAsc
  rw [length_insertionSort, List.length_range]

theorem mem_argsortAsc_lt (w : List α) : ∀ x ∈ argsortAsc w, x < w.length := by
  intro x hx
  have h := (mem_insertionSort _ _ x).mp hx
  exact List.mem_range.mp h

theorem length_applyCorrection (fS fD : ℕ → ℕ) (m : ℤ) (n : ℕ) (d : List ℤ) :
    (applyCorrection fS fD m n d).length = d.length := by
  unfold applyCorrection
  by_cases h1 : 0 < (n : ℤ) - d.sum
  · rw [if_pos h1, length_surplusLoop]
  · rw [if_neg h1]
    by_cases h2 : (n : ℤ) - d.sum < 0
    · rw [if_pos h2, length_deficitLoop]
    · rw [if_neg h2]

theorem sum_applyCorrection_ge (fS fD : ℕ → ℕ) (m : ℤ) (n : ℕ) (d : List ℤ)
    (hf : ∀ s, fS s < d.length) : (n : ℤ) ≤ (applyCorrection fS fD m n d).sum := by
  unfold applyCorrection
  by_cases h1 : 0 < (n : ℤ) - d.sum
  · rw [if_pos h1, sum_surplusLoop _ _ _ _ hf]
    have h2 : (((n : ℤ) - d.sum).toNat : ℤ) = (n : ℤ) - d.sum := Int.toNat_of_nonneg h1.le
    omega
  · rw [if_neg h1]
    by_cases h2 : (n : ℤ) - d.sum < 0
    · rw [if_pos h2]
      have h3 := sum_deficitLoop_ge m fD 0 d (-((n : ℤ) - d.sum)).toNat
      have h4 : ((-((n : ℤ) - d.sum)).toNat : ℤ) = -((n : ℤ) - d.sum) :=
        Int.toNat_of_nonneg (by omega)
      omega
    · rw [if_neg h2]
      omega

theorem sum_applyCorrection_eq (fS fD : ℕ → ℕ) (m : ℤ) (n : ℕ) (d : List ℤ)
    (hf : ∀ s, fS s < d.length) (hle : d.sum ≤ (n : ℤ)) :
    (applyCorrection fS fD m n d).sum = n := by
  unfold applyCorrection
  by_cases h1 : 0 < (n : ℤ) - d.sum
  · rw [if_pos h1, sum_surplusLoop _ _ _ _ hf]
    have h2 : (((n : ℤ) - d.sum).toNat : ℤ) = (n : ℤ) - d.sum := Int.toNat_of_nonneg h1.le
    omega
  · rw [if_neg h1, if_neg (by omega)]
    omega

theorem mem_applyCorrection_ge (fS fD : ℕ → ℕ) (m : ℤ) (n : ℕ) (d : List ℤ)
    (hd : ∀ x ∈ d, m ≤ x) : ∀ x ∈ applyCorrection fS fD m n d, m ≤ x := by
  unfold applyCorrection
  by_cases h1 : 0 < (n : ℤ) - d.sum
  · rw [if_pos h1]
    exact mem_surplusLoop_ge _ _ _ _ m hd
  · rw [if_neg h1]
    by_cases h2 : (n : ℤ) - d.sum < 0
    · rw [if_pos h2]
      exact mem_deficitLoop_ge _ _ _ _ _ hd
    · rw [if_neg h2]
      exact hd

theorem mem_applyCorrection_nonneg (fS fD : ℕ → ℕ) (m : ℤ) (n : ℕ) (d : List ℤ)
    (hd0 : ∀ x ∈ d, 0 ≤ x) (hdm : ∀ x ∈ d, m ≤ x)
    (h : d.sum ≤ (n : ℤ) ∨ 0 ≤ m) : ∀ x ∈ applyCorrection fS fD m n d, 0 ≤ x := by
  unfold applyCorrection
  by_cases h1 : 0 < (n : ℤ) - d.sum
  · rw [if_pos h1]
    exact mem_surplusLoop_ge _ _ _ _ 0 hd0
  · rw [if_neg h1]
    by_cases h2 : (n : ℤ) - d.sum < 0
    · rw [if_pos h2]
      rcases h with hle | hm0
      · exact absurd hle (by omega)
      · intro x hx
        exact le_trans hm0 (mem_deficitLoop_ge m fD 0 d _ hdm x hx)
    · rw [if_neg h2]
      exact hd0

/-! ## Lemmas about `zipfCore` and `pareto_distribution` -/

theorem getD_mem_of_lt {γ : Type} {l : List γ} (d : γ) {j : ℕ} (h : j < l.length) :
    l.getD j d ∈ l := by
  rw [List.getD_eq_getElem _ _ h]
  exact List.getElem_mem h

theorem length_zipfCore (w : List α) (n : ℕ) (m : ℤ) :
    (zipfCore w n m).length = w.length := by
  unfold zipfCore
  by_cases h : w.length = 0
  · rw [if_pos h, h]
    rfl
  · rw [if_neg h, length_applyCorrection, length_clampedCounts, length_normalize]

theorem zipfCore_sum_ge (w : List α) (n : ℕ) (m : ℤ) (hw : w ≠ []) :
    (n : ℤ) ≤ (zipfCore w n m).sum := by
  unfold zipfCore
  rw [if_neg (by simpa [List.length_eq_zero] using hw)]
  apply sum_applyCorrection_ge
  intro s
  rw [length_clampedCounts, length_normalize]
  exact Nat.mod_lt s (by simpa [List.length_pos] using hw)

theorem zipfCore_sum_eq (w : List α) (n : ℕ) (m : ℤ) (hw : w ≠ [])
    (hle : (clampedCounts (normalize w) n m).sum ≤ (n : ℤ)) : (zipfCore w n m).sum = n := by
  unfold zipfCore
  rw [if_neg (by simpa [List.length_eq_zero] using hw)]
  apply sum_applyCorrection_eq _ _ _ _ _ _ hle
  intro s
  rw [length_clampedCounts, length_normalize]
  exact Nat.mod_lt s (by simpa [List.length_pos] using hw)

theorem mem_zipfCore_ge (w : List α) (n : ℕ) (m : ℤ) :
    ∀ x ∈ zipfCore w n m, m ≤ x := by
  unfold zipfCore
  by_cases h : w.length = 0
  · rw [if_pos h]
    simp
  · rw [if_neg h]
    exact mem_applyCorrection_ge _ _ _ _ _ (mem_clampedCounts_ge _ _ _)

theorem mem_zipfCore_nonneg (w : List α) (n : ℕ) (m : ℤ) (hpos : ∀ x ∈ w, 0 < x) :
    ∀ x ∈ zipfCore w n m, 0 ≤ x := by
  unfold zipfCore
  by_cases h : w.length = 0
  · rw [if_pos h]
    simp
  · rw [if_neg h]
    have hne : w ≠ [] := by simpa [List.length_eq_zero] using h
    have hsumpos : 0 < w.sum := List.sum_pos w hpos hne
    have hnn : ∀ x ∈ normalize w, 0 ≤ x :=
      mem_normalize_nonneg w (fun x hx => (hpos x hx).le) hsumpos.le
    apply mem_applyCorrection_nonneg _ _ _ _ _
      (mem_clampedCounts_nonneg _ _ _ hnn) (mem_clampedCounts_ge _ _ _)
    by_cases hm : m ≤ 0
    · exact Or.inl (clampedCounts_sum_le _ _ _ hm hnn (sum_normalize w hsumpos.ne'))
    · exact Or.inr (by omega)

theorem length_pareto_distribution (samples : List α) (n : ℕ) (m : ℤ) :
    (pareto_distribution samples n m).length = samples.length := by
  unfold pareto_distribution
  by_cases h : samples.length = 0
  · rw [if_pos h, h]
    rfl
  · rw [if_neg h, length_applyCorrection, length_clampedCounts, length_normalize]
    simp [paretoWeightsRaw]

theorem pareto_fSur_lt (samples : List α) (h : samples.length ≠ 0) : ∀ s,
    (argsortAsc (normalize (paretoWeightsRaw samples))).reverse.getD (s % samples.length) 0
      < samples.length := by
  intro s
  have hlen : (argsortAsc (normalize (paretoWeightsRaw samples))).reverse.length
      = samples.length := by
    rw [List.length_reverse, length_argsortAsc, length_normalize]
    simp [paretoWeightsRaw]
  have hmem : (argsortAsc (normalize (paretoWeightsRaw samples))).reverse.getD
      (s % samples.length) 0 ∈ (argsortAsc (normalize (paretoWeightsRaw samples))).reverse := by
    apply getD_mem_of_lt
    rw [hlen]
    exact Nat.mod_lt s (Nat.pos_of_ne_zero h)
  have h2 := mem_argsortAsc_lt (normalize (paretoWeightsRaw samples)) _
    (List.mem_reverse.mp hmem)
  rw [length_normalize] at h2
  simpa [paretoWeightsRaw] using h2

theorem pareto_distribution_sum_ge (samples : List α) (n : ℕ) (m : ℤ) (hs : samples ≠ []) :
    (n : ℤ) ≤ (pareto_distribution samples n m).sum := by
  have h : samples.length ≠ 0 := by simpa [List.length_eq_zero] using hs
  unfold pareto_distribution
  rw [if_neg h]
  apply sum_applyCorrection_ge
  intro s
  rw [length_clampedCounts, length_normalize]
  have := pareto_fSur_lt samples h s
  simpa [paretoWeightsRaw] using this

theorem pareto_distribution_sum_eq (samples : List α) (n : ℕ) (m : ℤ) (hs : samples ≠ [])
    (hle : (clampedCounts (normalize (paretoWeightsRaw samples)) n m).sum ≤ (n : ℤ)) :
    (pareto_distribution samples n m).sum = n := by
  have h : samples.length ≠ 0 := by simpa [List.length_eq_zero] using hs
  unfold pareto_distribution
  rw [if_neg h]
  apply sum_applyCorrection_eq _ _ _ _ _ _ hle
  intro s
  rw [length_clampedCounts, length_normalize]
  have := pareto_fSur_lt samples h s
  simpa [paretoWeightsRaw] using this

theorem mem_pareto_distribution_ge (samples : List α) (n : ℕ) (m : ℤ) :
    ∀ x ∈ pareto_distribution samples n m, m ≤ x := by
  unfold pareto_distribution
  by_cases h : samples.length = 0
  · rw [if_pos h]
    simp
  · rw [if_neg h]
    exact mem_applyCorrection_ge _ _ _ _ _ (mem_clampedCounts_ge _ _ _)

theorem paretoWeightsRaw_pos (samples : List α) : ∀ x ∈ paretoWeightsRaw samples, 0 < x := by
  intro x hx
  rcases List.mem_map.mp hx with ⟨y, _, rfl⟩
  exact lt_of_lt_of_le (by norm_num) (le_max_right y (1/10))

theorem mem_pareto_distribution_nonneg (samples : List α) (n : ℕ) (m : ℤ) :
    ∀ x ∈ pareto_distribution samples n m, 0 ≤ x := by
  unfold pareto_distribution
  by_cases h : samples.length = 0
  · rw [if_pos h]
    simp
  · rw [if_neg h]
    have hne : paretoWeightsRaw samples ≠ [] := by
      simpa [paretoWeightsRaw, List.length_eq_zero] using h
    have hsumpos : 0 < (paretoWeightsRaw samples).sum :=
      List.sum_pos _ (paretoWeightsRaw_pos samples) hne
    have hnn : ∀ x ∈ normalize (paretoWeightsRaw samples), 0 ≤ x :=
      mem_normalize_nonneg _ (fun x hx => (paretoWeightsRaw_pos samples x hx).le) hsumpos.le
    apply mem_applyCorrection_nonneg _ _ _ _ _
      (mem_clampedCounts_nonneg _ _ _ hnn) (mem_clampedCounts_ge _ _ _)
    by_cases hm : m ≤ 0
    · exact Or.inl (clampedCounts_sum_le _ _ _ hm hnn (sum_normalize _ hsumpos.ne'))
    · exact Or.inr (by omega)

/-- Monotonicity of the corrected Zipf count vector: if the weight list is
positive and non-increasing, so is the output of `zipfCore`. -/
theorem zipfCore_sorted (w : List α) (n : ℕ) (m : ℤ)
    (hpos : ∀ x ∈ w, 0 < x)
    (hsort : ∀ i j, i ≤ j → j < w.length → w.getD j 0 ≤ w.getD i 0) :
    ∀ i j, i ≤ j → j < w.length →
      (zipfCore w n m).getD j 0 ≤ (zipfCore w n m).getD i 0 := by
  intro i j hij hj
  have hi : i < w.length := lt_of_le_of_lt hij hj
  have h0 : w.length ≠ 0 := by omega
  have hkpos : 0 < w.length := Nat.pos_of_ne_zero h0
  have hne : w ≠ [] := by simpa [List.length_eq_zero] using h0
  have hsumpos : 0 < w.sum := List.sum_pos w hpos hne
  have hdlen : (clampedCounts (normalize w) n m).length = w.length := by
    rw [length_clampedCounts, length_normalize]
  have hdsort : ∀ i' j', i' ≤ j' → j' < w.length →
      (clampedCounts (normalize w) n m).getD j' 0
        ≤ (clampedCounts (normalize w) n m).getD i' 0 := by
    intro i' j' hij' hj'
    have hi' : i' < w.length := lt_of_le_of_lt hij' hj'
    rw [getD_clampedCounts _ _ _ (by rw [length_normalize]; exact hj'),
      getD_clampedCounts _ _ _ (by rw [length_normalize]; exact hi')]
    apply max_le_max _ (le_refl m)
    apply truncInt_mono
    · apply mul_nonneg _ (Nat.cast_nonneg n)
      rw [getD_normalize w hj']
      exact div_nonneg (hpos _ (getD_mem_of_lt 0 hj')).le hsumpos.le
    · apply mul_le_mul_of_nonneg_right _ (Nat.cast_nonneg n)
      rw [getD_normalize w hj', getD_normalize w hi']
      have hw := hsort i' j' hij' hj'
      gcongr
  have hz : zipfCore w n m = applyCorrection (fun s => s % w.length)
      (fun s => w.length - 1 - (s % w.length)) m n (clampedCounts (normalize w) n m) := by
    unfold zipfCore
    rw [if_neg h0]
  rw [hz]
  unfold applyCorrection
  by_cases h1 : 0 < (n : ℤ) - (clampedCounts (normalize w) n m).sum
  · rw [if_pos h1]
    rw [getD_surplusLoop _ _ _ _ (by rw [hdlen]; exact hj),
      getD_surplusLoop _ _ _ _ (by rw [hdlen]; exact hi)]
    rw [countHits_mod _ _ _ hkpos hj, countHits_mod _ _ _ hkpos hi]
    have hd2 := hdsort i j hij hj
    have hind : (if j < ((n : ℤ) - (clampedCounts (normalize w) n m).sum).toNat % w.length
        then (1:ℕ) else 0)
        ≤ (if i < ((n : ℤ) - (clampedCounts (normalize w) n m).sum).toNat % w.length
            then 1 else 0) := by
      split_ifs <;> omega
    push_cast at hind ⊢
    omega
  · rw [if_neg h1]
    by_cases h2 : (n : ℤ) - (clampedCounts (normalize w) n m).sum < 0
    · rw [if_pos h2]
      have hmj : m ≤ (clampedCounts (normalize w) n m).getD j 0 := by
        rw [getD_clampedCounts _ _ _ (by rw [length_normalize]; exact hj)]
        exact le_max_right _ _
      have hmi : m ≤ (clampedCounts (normalize w) n m).getD i 0 := by
        rw [getD_clampedCounts _ _ _ (by rw [length_normalize]; exact hi)]
        exact le_max_right _ _
      rw [getD_deficitLoop _ _ _ _ _ (by rw [hdlen]; exact hj) hmj,
        getD_deficitLoop _ _ _ _ _ (by rw [hdlen]; exact hi) hmi]
      have hcongrj : ∀ t, countHits (fun s => w.length - 1 - s % w.length) j 0 t
          = countHits (fun s => s % w.length) (w.length - 1 - j) 0 t := by
        intro t
        apply countHits_congr
        intro s
        have hs := Nat.mod_lt s hkpos
        omega
      have hcongri : ∀ t, countHits (fun s => w.length - 1 - s % w.length) i 0 t
          = countHits (fun s => s % w.length) (w.length - 1 - i) 0 t := by
        intro t
        apply countHits_congr
        intro s
        have hs := Nat.mod_lt s hkpos
        omega
      rw [hcongrj, hcongri, countHits_mod _ _ _ hkpos (by omega),
        countHits_mod _ _ _ hkpos (by omega)]
      have hd2 := hdsort i j hij hj
      have hind : (if w.length - 1 - i
            < (-((n : ℤ) - (clampedCounts (normalize w) n m).sum)).toNat % w.length
          then (1:ℕ) else 0)
          ≤ (if w.length - 1 - j
              < (-((n : ℤ) - (clampedCounts (normalize w) n m).sum)).toNat % w.length
            then 1 else 0) := by
        split_ifs <;> omega
      push_cast at hind ⊢
      omega
    · rw [if_neg h2]
      exact hdsort i j hij hj

theorem length_zipfWeights (a : ℝ) (k : ℕ) : (zipfWeights a k).length = k := by
  unfold zipfWeights
  rw [List.length_map, List.length_range]

theorem getD_zipfWeights (a : ℝ) (k : ℕ) {j : ℕ} (hj : j < k) :
    (zipfWeights a k).getD j 0 = 1 / ((j : ℝ) + 1) ^ a := by
  unfold zipfWeights
  rw [List.getD_eq_getElem _ _ (by rw [List.length_map, List.length_range]; exact hj),
    List.getElem_map, List.getElem_range]

theorem zipfWeights_pos (a : ℝ) (k : ℕ) : ∀ x ∈ zipfWeights a k, 0 < x := by
  intro x hx
  rcases List.mem_map.mp hx with ⟨i, _, rfl⟩
  have h : (0:ℝ) < ((i : ℝ) + 1) ^ a :=
    Real.rpow_pos_of_pos (by positivity) a
  positivity

theorem zipfWeights_sorted (a : ℝ) (ha : 0 ≤ a) (k : ℕ) :
    ∀ i j, i ≤ j → j < k → (zipfWeights a k).getD j 0 ≤ (zipfWeights a k).getD i 0 := by
  intro i j hij hj
  rw [getD_zipfWeights a k hj, getD_zipfWeights a k (lt_of_le_of_lt hij hj)]
  apply one_div_le_one_div_of_le
  · exact Real.rpow_pos_of_pos (by positivity) a
  · exact Real.rpow_le_rpow (by positivity)
      (add_le_add_right (Nat.cast_le.mpr hij) 1) ha

/-! ## Lemmas about the file-slicing walk of `distribute_files_to_pods` -/

theorem length_slicesFrom (fs : List β) (cs : List ℕ) :
    (slicesFrom fs cs).length = cs.length := by
  induction cs generalizing fs with
  | nil => rfl
  | cons c cs ih => simp [slicesFrom, ih]

theorem flatten_slicesFrom (fs : List β) (cs : List ℕ) :
    (slicesFrom fs cs).flatten = fs.take cs.sum := by
  induction cs generalizing fs with
  | nil => simp [slicesFrom]
  | cons c cs ih =>
    simp only [slicesFrom, List.flatten_cons, ih, List.sum_cons]
    rw [List.take_add]

theorem map_length_slicesFrom (fs : List β) (cs : List ℕ) (h : cs.sum ≤ fs.length) :
    (slicesFrom fs cs).map List.length = cs := by
  induction cs generalizing fs with
  | nil => rfl
  | cons c cs ih =>
    simp only [List.sum_cons] at h
    simp only [slicesFrom, List.map_cons]
    congr 1
    · rw [List.length_take]
      omega
    · apply ih
      rw [List.length_drop]
      omega

theorem length_uniformPodCounts (b rem t : ℕ) : (uniformPodCounts b rem t).length = t := by
  induction t generalizing rem with
  | zero => rfl
  | succ t ih => simp [uniformPodCounts, ih]

theorem sum_uniformPodCounts (b rem t : ℕ) :
    (uniformPodCounts b rem t).sum = b * t + min rem t := by
  induction t generalizing rem with
  | zero => simp [uniformPodCounts]
  | succ t ih =>
    simp only [uniformPodCounts, List.sum_cons, ih]
    rw [Nat.mul_succ]
    by_cases h : 0 < rem
    · rw [if_pos h]
      omega
    · rw [if_neg h]
      omega

theorem length_podKeys (pcs : List ℕ) : (podKeys pcs).length = pcs.sum := by
  unfold podKeys
  rw [List.length_flatten, List.map_map]
  have h : (List.length ∘ fun sp : ℕ × ℕ => (List.range sp.2).map fun p => (sp.1+1, p+1))
      = Prod.snd := by
    funext sp
    rw [Function.comp_apply, List.length_map, List.length_range]
  rw [h, List.enum_map_snd]

theorem sum_toNat_of_nonneg (l : List ℤ) (h : ∀ x ∈ l, 0 ≤ x) :
    ((l.map Int.toNat).sum : ℤ) = l.sum := by
  induction l with
  | nil => simp
  | cons a t ih =>
    simp only [List.map_cons, List.sum_cons, Nat.cast_add]
    rw [ih (fun x hx => h x (List.mem_cons_of_mem _ hx))]
    have := h a (by simp)
    omega

theorem flatten_dftp_weighted (counts : List ℤ) (files : List β) (pcs : List ℕ)
    (hlen : counts.length = pcs.sum) (hsum : (files.length : ℤ) ≤ counts.sum)
    (hnn : ∀ x ∈ counts, 0 ≤ x) :
    ((dftp_weighted counts files pcs).map Prod.snd).flatten = files := by
  unfold dftp_weighted
  rw [List.map_snd_zip _ _
    (by rw [length_slicesFrom, List.length_map, hlen, length_podKeys])]
  rw [flatten_slicesFrom]
  apply List.take_of_length_le
  have h2 : ((counts.map Int.toNat).sum : ℤ) = counts.sum := sum_toNat_of_nonneg counts hnn
  omega

theorem uniformPodCounts_total (files : List β) (pcs : List ℕ) (h : 1 ≤ pcs.sum) :
    (uniformPodCounts (files.length / pcs.sum) (files.length % pcs.sum) pcs.sum).sum
      = files.length := by
  rw [sum_uniformPodCounts]
  have hrem : files.length % pcs.sum < pcs.sum := Nat.mod_lt _ (by omega)
  have hmin : min (files.length % pcs.sum) pcs.sum = files.length % pcs.sum := by omega
  rw [hmin, Nat.mul_comm]
  exact Nat.div_add_mod _ _

theorem flatten_dftp_uniform (files : List β) (pcs : List ℕ) (h : 1 ≤ pcs.sum) :
    ((dftp_uniform files pcs).map Prod.snd).flatten = files := by
  unfold dftp_uniform
  rw [List.map_snd_zip _ _
    (by rw [length_slicesFrom, length_uniformPodCounts, length_podKeys])]
  rw [flatten_slicesFrom, uniformPodCounts_total files pcs h]
  exact List.take_length files

theorem map_length_dftp_uniform (files : List β) (pcs : List ℕ) (h : 1 ≤ pcs.sum) :
    (dftp_uniform files pcs).map (fun p => p.2.length)
      = uniformPodCounts (files.length / pcs.sum) (files.length % pcs.sum) pcs.sum := by
  unfold dftp_uniform
  have hcomp : (fun p : (ℕ × ℕ) × List β => p.2.length)
      = List.length ∘ (Prod.snd : (ℕ × ℕ) × List β → List β) := rfl
  rw [hcomp, ← List.map_map, List.map_snd_zip _ _
    (by rw [length_slicesFrom, length_uniformPodCounts, length_podKeys])]
  apply map_length_slicesFrom
  rw [uniformPodCounts_total files pcs h]

/-! ## Lemmas about `uniform_distribution` -/

theorem length_bumpLoop (v : List ℕ) (r : ℕ) : (bumpLoop v r).length = v.length := by
  induction r with
  | zero => rfl
  | succ r ih => simp [bumpLoop, List.length_set, ih]

theorem getD_set_eq (l : List ℕ) (i a : ℕ) (h : i < l.length) : (l.set i a).getD i 0 = a := by
  rw [List.getD_eq_getElem _ _ (by rw [List.length_set]; exact h)]
  simp

theorem getD_set_ne (l : List ℕ) {i j : ℕ} (a : ℕ) (h : j ≠ i) :
    (l.set i a).getD j 0 = l.getD j 0 := by
  by_cases hj : j < l.length
  · rw [List.getD_eq_getElem _ _ (by rw [List.length_set]; exact hj),
      List.getD_eq_getElem _ _ hj]
    rw [List.getElem_set_ne (Ne.symm h)]
  · rw [List.getD_eq_default _ _ (by rw [List.length_set]; omega),
      List.getD_eq_default _ _ (by omega)]

theorem getD_bumpLoop (v : List ℕ) (r : ℕ) (hr : r ≤ v.length) {j : ℕ} (hj : j < v.length) :
    (bumpLoop v r).getD j 0 = v.getD j 0 + if j < r then 1 else 0 := by
  induction r with
  | zero => simp [bumpLoop]
  | succ r ih =>
    have hr' : r ≤ v.length := by omega
    by_cases hjr : j = r
    · subst hjr
      rw [show bumpLoop v (j+1)
          = (bumpLoop v j).set j ((bumpLoop v j).getD j 0 + 1) from rfl]
      rw [getD_set_eq _ _ _ (by rw [length_bumpLoop]; exact hj), ih hr']
      rw [if_neg (by omega), if_pos (by omega)]
    · rw [show bumpLoop v (r+1)
          = (bumpLoop v r).set r ((bumpLoop v r).getD r 0 + 1) from rfl]
      rw [getD_set_ne _ _ hjr, ih hr']
      by_cases hlt : j < r
      · rw [if_pos hlt, if_pos (by omega)]
      · rw [if_neg hlt, if_neg (by omega)]

theorem getD_uniform_distribution (n k : ℕ) (hk : 1 ≤ k) {j : ℕ} (hj : j < k) :
    (uniform_distribution n k).getD j 0 = n / k + if j < n % k then 1 else 0 := by
  unfold uniform_distribution
  rw [if_neg (by omega)]
  have hrep : (List.replicate k (n / k)).length = k := List.length_replicate k _
  rw [getD_bumpLoop _ _ (by rw [hrep]; exact (Nat.mod_lt n (by omega)).le)
    (by rw [hrep]; exact hj)]
  congr 1
  rw [List.getD_eq_getElem _ _ (by rw [hrep]; exact hj), List.getElem_replicate]

/-! ## Lemmas about the access-control map operations -/

theorem acLookup_acExtend_ne (m : List (String × List String)) (k k' : String)
    (ids : List String) (h : k' ≠ k) : acLookup (acExtend m k ids) k' = acLookup m k' := by
  induction m with
  | nil => rfl
  | cons p rest ih =>
    by_cases hp : p.1 = k
    · simp only [acExtend, if_pos hp, acLookup]
      rw [if_neg (fun hh => h (hh.symm.trans hp)), if_neg (fun hh => h (hh.symm.trans hp))]
    · simp only [acExtend, if_neg hp, acLookup]
      by_cases hpk : p.1 = k'
      · rw [if_pos hpk, if_pos hpk]
      · rw [if_neg hpk, if_neg hpk]
        exact ih

theorem acLookup_acExtend_self (m : List (String × List String)) (k : String)
    (ids l : List String) (h : acLookup m k = some l) :
    acLookup (acExtend m k ids) k = some (l ++ ids) := by
  induction m with
  | nil => simp [acLookup] at h
  | cons p rest ih =>
    by_cases hp : p.1 = k
    · simp only [acLookup, if_pos hp] at h
      simp only [acExtend, if_pos hp, acLookup, if_pos hp]
      rw [Option.some_inj.mp h]
    · simp only [acLookup, if_neg hp] at h
      simp only [acExtend, if_neg hp, acLookup, if_neg hp]
      exact ih h

theorem acExtend_of_none (m : List (String × List String)) (k : String)
    (ids : List String) (h : acLookup m k = none) : acExtend m k ids = m := by
  induction m with
  | nil => rfl
  | cons p rest ih =>
    by_cases hp : p.1 = k
    · simp [acLookup, if_pos hp] at h
    · simp only [acLookup, if_neg hp] at h
      simp only [acExtend, if_neg hp]
      rw [ih h]

theorem keys_acExtend (m : List (String × List String)) (k : String) (ids : List String) :
    (acExtend m k ids).map Prod.fst = m.map Prod.fst := by
  induction m with
  | nil => rfl
  | cons p rest ih =>
    by_cases hp : p.1 = k
    · simp only [acExtend, if_pos hp, List.map_cons]
    · simp only [acExtend, if_neg hp, List.map_cons, ih]

theorem acLookup_acSet_self (m : List (String × List String)) (k : String)
    (v : List String) : acLookup (acSet m k v) k = some v := by
  induction m with
  | nil => simp [acSet, acLookup]
  | cons p rest ih =>
    by_cases hp : p.1 = k
    · simp [acSet, if_pos hp, acLookup]
    · simp only [acSet, if_neg hp, acLookup, if_neg hp]
      exact ih

theorem acLookup_acSet_ne (m : List (String × List String)) (k k' : String)
    (v : List String) (h : k' ≠ k) : acLookup (acSet m k v) k' = acLookup m k' := by
  induction m with
  | nil => simp [acSet, acLookup, if_neg (Ne.symm h)]
  | cons p rest ih =>
    by_cases hp : p.1 = k
    · simp only [acSet, if_pos hp, acLookup]
      rw [if_neg (Ne.symm h), if_neg (fun hh => h (hh.symm.trans hp))]
    · simp only [acSet, if_neg hp, acLookup]
      by_cases hpk : p.1 = k'
      · rw [if_pos hpk, if_pos hpk]
      · rw [if_neg hpk, if_neg hpk]
        exact ih

theorem mem_keys_acSet (m : List (String × List String)) (k : String) (v : List String)
    (x : String) : x ∈ (acSet m k v).map Prod.fst ↔ x ∈ m.map Prod.fst ∨ x = k := by
  induction m with
  | nil => simp [acSet]
  | cons p rest ih =>
    by_cases hp : p.1 = k
    · simp only [acSet, if_pos hp, List.map_cons, List.mem_cons]
      constructor
      · rintro (h1 | h1)
        · exact Or.inr h1
        · exact Or.inl (Or.inr h1)
      · rintro ((h1 | h1) | h1)
        · exact Or.inl (h1.trans hp)
        · exact Or.inr h1
        · exact Or.inl h1
    · simp only [acSet, if_neg hp, List.map_cons, List.mem_cons, ih]
      tauto

theorem acLookup_isSome_iff (m : List (String × List String)) (k : String) :
    (acLookup m k).isSome ↔ k ∈ m.map Prod.fst := by
  induction m with
  | nil => simp [acLookup]
  | cons p rest ih =>
    by_cases hp : p.1 = k
    · simp [acLookup, if_pos hp, hp]
    · simp only [acLookup, if_neg hp, List.map_cons, List.mem_cons, ih]
      constructor
      · exact fun h => Or.inr h
      · rintro (h1 | h1)
        · exact absurd h1.symm hp
        · exact h1

theorem acExtend_sublist (m : List (String × List String)) (k k' : String)
    (ids l : List String) (h : acLookup m k' = some l) :
    ∃ l', acLookup (acExtend m k ids) k' = some l' ∧ l.Sublist l' := by
  by_cases hk : k' = k
  · subst hk
    exact ⟨l ++ ids, acLookup_acExtend_self m k' ids l h, List.sublist_append_left l ids⟩
  · exact ⟨l, by rw [acLookup_acExtend_ne m k k' ids hk]; exact h, List.Sublist.refl l⟩

theorem extendFold_sublist (sds : List (β × String)) (wid : String) (k' : String) :
    ∀ (acm : List (String × List String)) (l : List String), acLookup acm k' = some l →
      ∃ l', acLookup (sds.foldl (fun m2 sd => acExtend m2 sd.2 [wid]) acm) k' = some l'
        ∧ l.Sublist l' := by
  induction sds with
  | nil =>
    intro acm l h
    exact ⟨l, h, List.Sublist.refl l⟩
  | cons sd tl ih =>
    intro acm l h
    rcases acExtend_sublist acm sd.2 k' [wid] l h with ⟨l1, h1, hs1⟩
    rcases ih (acExtend acm sd.2 [wid]) l1 h1 with ⟨l2, h2, hs2⟩
    exact ⟨l2, h2, hs1.trans hs2⟩

theorem keys_extendFold (sds : List (β × String)) (wid : String) :
    ∀ acm : List (String × List String),
      (sds.foldl (fun m2 sd => acExtend m2 sd.2 [wid]) acm).map Prod.fst
        = acm.map Prod.fst := by
  induction sds with
  | nil => intro acm; rfl
  | cons sd tl ih =>
    intro acm
    rw [List.foldl_cons, ih (acExtend acm sd.2 [wid]), keys_acExtend]

theorem keys_agentStep (files : List (β × String)) (sample : Agent → List (β × String))
    (m : List (String × List String)) (a : Agent) :
    (agentStep files sample m a).map Prod.fst = m.map Prod.fst := by
  unfold agentStep
  by_cases h : 0 < numFilesToAccess files.length (powerOf a)
  · rw [if_pos h]
    exact keys_extendFold (sample a) a.webid m
  · rw [if_neg h]

theorem agentStep_sublist (files : List (β × String)) (sample : Agent → List (β × String))
    (m : List (String × List String)) (a : Agent) (k' : String) (l : List String)
    (h : acLookup m k' = some l) :
    ∃ l', acLookup (agentStep files sample m a) k' = some l' ∧ l.Sublist l' := by
  unfold agentStep
  by_cases hn : 0 < numFilesToAccess files.length (powerOf a)
  · rw [if_pos hn]
    exact extendFold_sublist (sample a) a.webid k' m l h
  · rw [if_neg hn]
    exact ⟨l, h, List.Sublist.refl l⟩

theorem agentsFold_sublist (files : List (β × String)) (sample : Agent → List (β × String))
    (agents : List Agent) (k' : String) :
    ∀ acm l, acLookup acm k' = some l →
      ∃ l', acLookup (agents.foldl (agentStep files sample) acm) k' = some l'
        ∧ l.Sublist l' := by
  induction agents with
  | nil =>
    intro acm l h
    exact ⟨l, h, List.Sublist.refl l⟩
  | cons a tl ih =>
    intro acm l h
    rcases agentStep_sublist files sample acm a k' l h with ⟨l1, h1, hs1⟩
    rcases ih (agentStep files sample acm a) l1 h1 with ⟨l2, h2, hs2⟩
    exact ⟨l2, h2, hs1.trans hs2⟩

theorem keys_agentsFold (files : List (β × String)) (sample : Agent → List (β × String))
    (agents : List Agent) :
    ∀ acm, (agents.foldl (agentStep files sample) acm).map Prod.fst = acm.map Prod.fst := by
  induction agents with
  | nil => intro acm; rfl
  | cons a tl ih =>
    intro acm
    rw [List.foldl_cons, ih (agentStep files sample acm a), keys_agentStep]

theorem mem_keys_seedFold (files : List (β × String)) (x : String) :
    ∀ acm, x ∈ ((files.foldl (fun m sd => acSet m sd.2 []) acm).map Prod.fst)
      ↔ x ∈ acm.map Prod.fst ∨ x ∈ files.map (fun sd => sd.2) := by
  induction files with
  | nil =>
    intro acm
    simp
  | cons sd tl ih =>
    intro acm
    rw [List.foldl_cons, ih (acSet acm sd.2 []), mem_keys_acSet, List.map_cons,
      List.mem_cons]
    tauto

theorem mem_keys_imagineacl (files : List (β × String)) (agents : List Agent)
    (sample : Agent → List (β × String)) (x : String) :
    x ∈ (imagineaclspecial files agents sample).map Prod.fst
      ↔ x ∈ files.map (fun sd => sd.2) := by
  unfold imagineaclspecial seedAccessControl
  rw [keys_agentsFold, mem_keys_seedFold files x []]
  simp

theorem regularStep_sublist (sampleIds : β × String → List String)
    (m : List (String × List String)) (sd : β × String) (k' : String) (l : List String)
    (h : acLookup m k' = some l) :
    ∃ l', acLookup (regularStep sampleIds m sd) k' = some l' ∧ l.Sublist l' := by
  unfold regularStep
  by_cases hs : (acLookup m sd.2).isSome
  · rw [if_pos hs]
    exact acExtend_sublist m sd.2 k' (sampleIds sd) l h
  · rw [if_neg hs]
    have hk : k' ≠ sd.2 := by
      intro hh
      rw [hh] at h
      rw [h] at hs
      simp at hs
    apply acExtend_sublist
    rw [acLookup_acSet_ne m sd.2 k' [] hk]
    exact h

theorem grantRegular_sublist (mappings : List (β × String))
    (sampleIds : β × String → List String) (k' : String) :
    ∀ acm l, acLookup acm k' = some l →
      ∃ l', acLookup (grantRegular mappings sampleIds acm) k' = some l' ∧ l.Sublist l' := by
  induction mappings with
  | nil =>
    intro acm l h
    exact ⟨l, h, List.Sublist.refl l⟩
  | cons hd tl ih =>
    intro acm l h
    rcases regularStep_sublist sampleIds acm hd k' l h with ⟨l1, h1, hs1⟩
    rcases ih (regularStep sampleIds acm hd) l1 h1 with ⟨l2, h2, hs2⟩
    exact ⟨l2, h2, hs1.trans hs2⟩

theorem mem_keys_regularStep (sampleIds : β × String → List String)
    (m : List (String × List String)) (sd : β × String) (x : String) :
    x ∈ (regularStep sampleIds m sd).map Prod.fst ↔ x ∈ m.map Prod.fst ∨ x = sd.2 := by
  unfold regularStep
  rw [keys_acExtend]
  by_cases hs : (acLookup m sd.2).isSome
  · rw [if_pos hs]
    have hin : sd.2 ∈ m.map Prod.fst := (acLookup_isSome_iff m sd.2).mp hs
    constructor
    · exact Or.inl
    · rintro (h1 | h1)
      · exact h1
      · exact h1 ▸ hin
  · rw [if_neg hs]
    exact mem_keys_acSet m sd.2 [] x

theorem mem_keys_grantRegular (mappings : List (β × String))
    (sampleIds : β × String → List String) (x : String) :
    ∀ acm, x ∈ (grantRegular mappings sampleIds acm).map Prod.fst
      ↔ x ∈ acm.map Prod.fst ∨ x ∈ mappings.map (fun sd => sd.2) := by
  induction mappings with
  | nil =>
    intro acm
    simp [grantRegular]
  | cons hd tl ih =>
    intro acm
    have h1 : grantRegular (hd :: tl) sampleIds acm
        = grantRegular tl sampleIds (regularStep sampleIds acm hd) := rfl
    rw [h1, ih (regularStep sampleIds acm hd), mem_keys_regularStep, List.map_cons,
      List.mem_cons]
    tauto

theorem regularStep_self_mem (sampleIds : β × String → List String)
    (m : List (String × List String)) (sd : β × String) :
    ∀ w ∈ sampleIds sd, ∃ l, acLookup (regularStep sampleIds m sd) sd.2 = some l ∧ w ∈ l := by
  intro w hw
  unfold regularStep
  have hm1 : ∃ l0, acLookup (if (acLookup m sd.2).isSome then m else acSet m sd.2 []) sd.2
      = some l0 := by
    by_cases hs : (acLookup m sd.2).isSome
    · rw [if_pos hs]
      rcases Option.isSome_iff_exists.mp hs with ⟨l0, hl0⟩
      exact ⟨l0, hl0⟩
    · rw [if_neg hs]
      exact ⟨[], acLookup_acSet_self m sd.2 []⟩
  rcases hm1 with ⟨l0, hl0⟩
  exact ⟨l0 ++ sampleIds sd, acLookup_acExtend_self _ sd.2 _ l0 hl0,
    List.mem_append_right l0 hw⟩

theorem grantRegular_complete_aux (mappings : List (β × String))
    (sampleIds : β × String → List String) :
    ∀ acm, ∀ sd ∈ mappings, ∀ w ∈ sampleIds sd,
      ∃ l, acLookup (grantRegular mappings sampleIds acm) sd.2 = some l ∧ w ∈ l := by
  induction mappings with
  | nil =>
    intro acm sd h
    simp at h
  | cons hd tl ih =>
    intro acm sd hsd w hw
    rcases List.mem_cons.mp hsd with h1 | h1
    · subst h1
      rcases regularStep_self_mem sampleIds acm sd w hw with ⟨l, hl, hwl⟩
      rcases grantRegular_sublist tl sampleIds sd.2 (regularStep sampleIds acm sd) l hl
        with ⟨l', hl', hs⟩
      exact ⟨l', hl', hs.subset hwl⟩
    · exact ih (regularStep sampleIds acm hd) sd h1 w hw

theorem acLookup_mem (m : List (String × List String)) (k : String) (l : List String)
    (h : acLookup m k = some l) : (k, l) ∈ m := by
  induction m with
  | nil => simp [acLookup] at h
  | cons p rest ih =>
    by_cases hp : p.1 = k
    · simp only [acLookup, if_pos hp] at h
      have hpl : p = (k, l) := Prod.ext hp (Option.some_inj.mp h)
      exact hpl ▸ List.mem_cons_self p rest
    · simp only [acLookup, if_neg hp] at h
      exact List.mem_cons_of_mem p (ih h)

theorem mem_acSet (m : List (String × List String)) (k : String) (v : List String)
    (p : String × List String) (h : p ∈ acSet m k v) : p ∈ m ∨ p = (k, v) := by
  induction m with
  | nil => simpa [acSet] using h
  | cons q rest ih =>
    by_cases hq : q.1 = k
    · simp only [acSet, if_pos hq, List.mem_cons] at h
      rcases h with h1 | h1
      · exact Or.inr h1
      · exact Or.inl (List.mem_cons_of_mem q h1)
    · simp only [acSet, if_neg hq, List.mem_cons] at h
      rcases h with h1 | h1
      · exact Or.inl (h1 ▸ List.mem_cons_self q rest)
      · rcases ih h1 with h2 | h2
        · exact Or.inl (List.mem_cons_of_mem q h2)
        · exact Or.inr h2

theorem seedFold_values (files : List (β × String)) :
    ∀ acm, (∀ p ∈ acm, p.2 = ([] : List String)) →
      ∀ p ∈ files.foldl (fun m sd => acSet m sd.2 []) acm, p.2 = [] := by
  induction files with
  | nil =>
    intro acm h
    exact h
  | cons sd tl ih =>
    intro acm h
    apply ih (acSet acm sd.2 [])
    intro p hp
    rcases mem_acSet acm sd.2 [] p hp with h1 | h1
    · exact h p h1
    · rw [h1]

theorem seedAccessControl_empty_values (files : List (β × String)) (d : String)
    (l : List String) (h : acLookup (seedAccessControl files) d = some l) : l = [] := by
  have h2 := acLookup_mem _ _ _ h
  exact seedFold_values files [] (by simp) (d, l) h2

theorem numFilesToAccess_zero (n : ℕ) : numFilesToAccess n 0 = 0 := by
  unfold numFilesToAccess
  norm_num

/-- Refinement: on agents whose `power` key is present, the fallible pass
agrees with the total one (per step). -/
theorem agentStepRaw_eq_ok (files : List (β × String))
    (sampleRaw : RawAgent → List (β × String)) (sampleA : Agent → List (β × String))
    (hs : ∀ a : RawAgent, sampleA a.toAgent = sampleRaw a)
    (m : List (String × List String)) (a : RawAgent)
    (ha : a.power ≠ PowerField.missing) :
    agentStepRaw files sampleRaw m a = Except.ok (agentStep files sampleA m a.toAgent) := by
  cases a with
  | mk w pw =>
    cases pw with
    | missing => exact absurd rfl ha
    | unparsable =>
      simp [agentStepRaw, readPower, agentStep, RawAgent.toAgent, powerOf,
        numFilesToAccess_zero]
    | intval p =>
      have hsa := hs ⟨w, PowerField.intval p⟩
      simp only [RawAgent.toAgent] at hsa
      simp [agentStepRaw, readPower, agentStep, RawAgent.toAgent, powerOf]
      rw [hsa]
      split_ifs <;> rfl

/-- Refinement: on agent lists whose `power` keys are all present, the
fallible agent loop returns `ok` of the total loop's result. -/
theorem aclFoldRaw_eq_ok (files : List (β × String))
    (sampleRaw : RawAgent → List (β × String)) (sampleA : Agent → List (β × String))
    (hs : ∀ a : RawAgent, sampleA a.toAgent = sampleRaw a) :
    ∀ (agents : List RawAgent) (m : List (String × List String)),
      (∀ a ∈ agents, a.power ≠ PowerField.missing) →
      aclFoldRaw files sampleRaw m agents
        = Except.ok ((agents.map RawAgent.toAgent).foldl (agentStep files sampleA) m) := by
  intro agents
  induction agents with
  | nil =>
    intro m h
    rfl
  | cons a rest ih =>
    intro m h
    have ha : a.power ≠ PowerField.missing := h a (by simp)
    have hstep := agentStepRaw_eq_ok files sampleRaw sampleA hs m a ha
    simp only [aclFoldRaw, hstep, List.map_cons, List.foldl_cons]
    exact ih _ (fun b hb => h b (List.mem_cons_of_mem a hb))

/-- Refinement: `imagineaclspecialRaw` agrees with `imagineaclspecial` when
every agent's `power` key is present — the situation in every run of this
repository, whose `init_sanode_list` always creates the key. -/
theorem imagineaclspecialRaw_eq_ok (files : List (β × String)) (agents : List RawAgent)
    (sampleRaw : RawAgent → List (β × String)) (sampleA : Agent → List (β × String))
    (hs : ∀ a : RawAgent, sampleA a.toAgent = sampleRaw a)
    (h : ∀ a ∈ agents, a.power ≠ PowerField.missing) :
    imagineaclspecialRaw files agents sampleRaw
      = Except.ok (imagineaclspecial files (agents.map RawAgent.toAgent) sampleA) := by
  unfold imagineaclspecialRaw imagineaclspecial
  exact aclFoldRaw_eq_ok files sampleRaw sampleA hs agents (seedAccessControl files) h

/-! ## Claim theorems -/

/-- Claim C1, counterexample: a pareto-strategy allocation call with k = 2
buckets (draws `[3, 1]`), n = 8 items and min_count = 3 — so
`k * min_count = 6 ≤ 8` — returns `[6, 3]`, which sums to 9, not 8.  The
deficit loop runs `|diff| = 1` iteration targeting the lowest-weight bucket,
which already sits at the floor, so the removal is skipped and never
retried. -/
theorem C1_counterexample :
    2 * 3 ≤ 8
    ∧ pareto_distribution ([3, 1] : List ℚ) 8 3 = [6, 3]
    ∧ (pareto_distribution ([3, 1] : List ℚ) 8 3).sum ≠ 8 := by
  have h : pareto_distribution ([3, 1] : List ℚ) 8 3 = [6, 3] := by
    norm_num [pareto_distribution, applyCorrection, clampedCounts, normalize,
      paretoWeightsRaw, truncInt, argsortAsc, insertionSort, insertSorted, surplusLoop,
      deficitLoop, decAtIfAbove, incAt]
  refine ⟨by norm_num, h, ?_⟩
  rw [h]
  decide

/-- Claim C1, amended: for pareto or zipf allocations over k ≥ 1 buckets, the
returned vector sums to exactly n whenever the min-clamped truncated
estimates sum to at most n (in particular the surplus correction is exact);
in the deficit case the sum never drops below n but may stay above it, even
when `k * min_count ≤ n`.  `zipfCore` is the zipf allocator for an arbitrary
weight vector, so this covers `zipf_distribution` for every alpha. -/
theorem C1_conservation_amended (samples w : List α) (n : ℕ) (m : ℤ)
    (hs : samples ≠ []) (hw : w ≠ []) :
    ((clampedCounts (normalize (paretoWeightsRaw samples)) n m).sum ≤ (n : ℤ) →
      (pareto_distribution samples n m).sum = n)
    ∧ (n : ℤ) ≤ (pareto_distribution samples n m).sum
    ∧ ((clampedCounts (normalize w) n m).sum ≤ (n : ℤ) → (zipfCore w n m).sum = n)
    ∧ (n : ℤ) ≤ (zipfCore w n m).sum :=
  ⟨pareto_distribution_sum_eq samples n m hs, pareto_distribution_sum_ge samples n m hs,
    zipfCore_sum_eq w n m hw, zipfCore_sum_ge w n m hw⟩

theorem C1_conservation_amended_witness :
    (([3, 1] : List ℚ) ≠ [] ∧ ([1] : List ℚ) ≠ []
      ∧ (clampedCounts (normalize (paretoWeightsRaw ([3, 1] : List ℚ))) 8 2).sum ≤ (8 : ℤ)
      ∧ (clampedCounts (normalize ([1] : List ℚ)) 5 0).sum ≤ (5 : ℤ))
    ∧ (pareto_distribution ([3, 1] : List ℚ) 8 2).sum = 8
    ∧ (zipfCore ([1] : List ℚ) 5 0).sum = 5 := by
  have h1 : (clampedCounts (normalize (paretoWeightsRaw ([3, 1] : List ℚ))) 8 2).sum
      ≤ (8 : ℤ) := by
    norm_num [clampedCounts, normalize, paretoWeightsRaw, truncInt]
  have h2 : (clampedCounts (normalize ([1] : List ℚ)) 5 0).sum ≤ (5 : ℤ) := by
    norm_num [clampedCounts, normalize, truncInt]
  refine ⟨⟨by simp, by simp, h1, h2⟩, ?_, ?_⟩
  · exact (C1_conservation_amended ([3, 1] : List ℚ) [1] 8 2 (by simp) (by simp)).1 h1
  · exact (C1_conservation_amended ([3, 1] : List ℚ) [1] 5 0 (by simp)
      (by simp)).2.2.1 h2

/-- Claim C3: in every pareto or zipf allocation result in which conservation
held (`sum(result) = n`), every entry is at least `min_count`.  In fact the
floor holds for every result, conserved or not: the clamp establishes it and
both correction loops preserve it. -/
theorem C3_floor_respect (samples w : List α) (n : ℕ) (m : ℤ)
    (h1 : (pareto_distribution samples n m).sum = n)
    (h2 : (zipfCore w n m).sum = n) :
    (∀ x ∈ pareto_distribution samples n m, m ≤ x) ∧ (∀ x ∈ zipfCore w n m, m ≤ x) :=
  ⟨mem_pareto_distribution_ge samples n m, mem_zipfCore_ge w n m⟩

theorem C3_floor_respect_witness :
    ((pareto_distribution ([3, 1] : List ℚ) 8 2).sum = 8
      ∧ (zipfCore ([1] : List ℚ) 8 2).sum = 8)
    ∧ (∀ x ∈ pareto_distribution ([3, 1] : List ℚ) 8 2, (2 : ℤ) ≤ x)
    ∧ (∀ x ∈ zipfCore ([1] : List ℚ) 8 2, (2 : ℤ) ≤ x) := by
  have h1 : (pareto_distribution ([3, 1] : List ℚ) 8 2).sum = 8 := by
    norm_num [pareto_distribution, applyCorrection, clampedCounts, normalize,
      paretoWeightsRaw, truncInt, argsortAsc, insertionSort, insertSorted, surplusLoop,
      deficitLoop, decAtIfAbove, incAt]
  have h2 : (zipfCore ([1] : List ℚ) 8 2).sum = 8 := by
    norm_num [zipfCore, applyCorrection, clampedCounts, normalize, truncInt,
      surplusLoop, deficitLoop, decAtIfAbove, incAt]
  exact ⟨⟨h1, h2⟩, C3_floor_respect ([3, 1] : List ℚ) [1] 8 2 h1 h2⟩

/-- Claim C4: for every zipf allocation with alpha > 0 over k ≥ 1 buckets, the
rank-1 weight (index 0) is the largest weight, and the corrected count vector
is monotone non-increasing by rank. -/
theorem C4_zipf_monotonicity (alpha : ℝ) (k n : ℕ) (m : ℤ) (ha : 0 < alpha) (hk : 1 ≤ k) :
    (∀ j, j < k → (zipfWeights alpha k).getD j 0 ≤ (zipfWeights alpha k).getD 0 0)
    ∧ (∀ i j, i ≤ j → j < k →
        (zipf_distribution alpha k n m).getD j 0 ≤ (zipf_distribution alpha k n m).getD i 0) := by
  constructor
  · intro j hj
    exact zipfWeights_sorted alpha ha.le k 0 j (Nat.zero_le j) hj
  · intro i j hij hj
    unfold zipf_distribution
    apply zipfCore_sorted (zipfWeights alpha k) n m (zipfWeights_pos alpha k)
      (fun i' j' hij' hj' => zipfWeights_sorted alpha ha.le k i' j' hij'
        (by rw [length_zipfWeights] at hj'; exact hj')) i j hij
    rw [length_zipfWeights]
    exact hj

theorem C4_zipf_monotonicity_witness :
    ((0 : ℝ) < 6/5 ∧ 1 ≤ 3)
    ∧ (∀ j, j < 3 → (zipfWeights (6/5) 3).getD j 0 ≤ (zipfWeights (6/5) 3).getD 0 0)
    ∧ (∀ i j, i ≤ j → j < 3 →
        (zipf_distribution (6/5) 3 100 1).getD j 0
          ≤ (zipf_distribution (6/5) 3 100 1).getD i 0) :=
  ⟨⟨by norm_num, by norm_num⟩, C4_zipf_monotonicity (6/5) 3 100 1 (by norm_num) (by norm_num)⟩

/-- Claim C2: for every `distribute_files_to_pods` call with any of the three
strategies, a pod structure with `sum(pod_counts) ≥ 1`, and any input file
sequence, the concatenation of the per-(server, pod) file lists in
bucket-walk order is exactly the input file sequence: no item is lost,
duplicated, or reordered.  The pareto draws `samples` have length
`sum(pod_counts)` in every real call. -/
theorem C2_no_item_loss (samples : List ℝ) (alpha : ℝ) (files : List β) (pcs : List ℕ)
    (m : ℤ) (hp : 1 ≤ pcs.sum) (hs : samples.length = pcs.sum) :
    (distribute_files_to_pods samples alpha files pcs "uniform" m
        = Except.ok (dftp_uniform files pcs)
      ∧ ((dftp_uniform files pcs).map Prod.snd).flatten = files)
    ∧ (distribute_files_to_pods samples alpha files pcs "pareto" m
        = Except.ok (dftp_pareto samples files pcs m)
      ∧ ((dftp_pareto samples files pcs m).map Prod.snd).flatten = files)
    ∧ (distribute_files_to_pods samples alpha files pcs "zipf" m
        = Except.ok (dftp_zipf alpha files pcs m)
      ∧ ((dftp_zipf alpha files pcs m).map Prod.snd).flatten = files) := by
  have hsam : samples ≠ [] := by
    intro hh
    rw [hh] at hs
    simp at hs
    omega
  refine ⟨⟨rfl, flatten_dftp_uniform files pcs hp⟩, ⟨rfl, ?_⟩, ⟨rfl, ?_⟩⟩
  · apply flatten_dftp_weighted
    · rw [length_pareto_distribution, hs]
    · exact pareto_distribution_sum_ge samples files.length m hsam
    · exact mem_pareto_distribution_nonneg samples files.length m
  · have hzw : zipfWeights alpha pcs.sum ≠ [] := by
      apply List.ne_nil_of_length_pos
      rw [length_zipfWeights]
      omega
    apply flatten_dftp_weighted
    · unfold zipf_distribution
      rw [length_zipfCore, length_zipfWeights]
    · exact zipfCore_sum_ge _ files.length m hzw
    · exact mem_zipfCore_nonneg _ files.length m (zipfWeights_pos alpha pcs.sum)

theorem C2_no_item_loss_witness :
    (1 ≤ ([2, 2] : List ℕ).sum ∧ ([1, 1, 1, 1] : List ℝ).length = ([2, 2] : List ℕ).sum)
    ∧ ((dftp_uniform (List.range 10) [2, 2]).map Prod.snd).flatten = List.range 10
    ∧ ((dftp_pareto ([1, 1, 1, 1] : List ℝ) (List.range 10) [2, 2] 1).map Prod.snd).flatten
        = List.range 10
    ∧ ((dftp_zipf 1 (List.range 10) [2, 2] 1).map Prod.snd).flatten = List.range 10 := by
  have h := C2_no_item_loss ([1, 1, 1, 1] : List ℝ) 1 (List.range 10) [2, 2] 1
    (by decide) (by decide)
  exact ⟨⟨by decide, by decide⟩, h.1.2, h.2.1.2, h.2.2.2⟩

/-- Claim C5: the uniform allocator gives the first `n % k` buckets
`n / k + 1` units and the rest `n / k`; concretely `n = 10, k = 3` gives
`[4, 3, 3]`; end-to-end, 2 servers with 2 pods each under `uniform` get pod
counts `[2, 2]`, and 10 items over the resulting 4 pods get counts
`[3, 3, 2, 2]` summing to 10. -/
theorem C5_uniform_fairness (n k j : ℕ) (files : List ℕ) (hk : 1 ≤ k) (hj : j < k)
    (hf : files.length = 10) :
    (uniform_distribution n k).getD j 0 = n / k + (if j < n % k then 1 else 0)
    ∧ uniform_distribution 10 3 = [4, 3, 3]
    ∧ distribute_pods_to_servers [] 2 2 "uniform" 1 0 = Except.ok ([2, 2] : List ℤ)
    ∧ (dftp_uniform files [2, 2]).map (fun p => p.2.length) = [3, 3, 2, 2]
    ∧ ((dftp_uniform files [2, 2]).map (fun p => p.2.length)).sum = 10 := by
  refine ⟨getD_uniform_distribution n k hk hj, by decide, rfl, ?_, ?_⟩
  · rw [map_length_dftp_uniform files [2, 2] (by decide), hf]
    decide
  · rw [map_length_dftp_uniform files [2, 2] (by decide), hf]
    decide

theorem C5_uniform_fairness_witness :
    (1 ≤ 3 ∧ 0 < 3 ∧ (List.range 10).length = 10)
    ∧ (uniform_distribution 10 3).getD 0 0 = 10 / 3 + (if 0 < 10 % 3 then 1 else 0)
    ∧ uniform_distribution 10 3 = [4, 3, 3]
    ∧ distribute_pods_to_servers [] 2 2 "uniform" 1 0 = Except.ok ([2, 2] : List ℤ)
    ∧ (dftp_uniform (List.range 10) [2, 2]).map (fun p => p.2.length) = [3, 3, 2, 2]
    ∧ ((dftp_uniform (List.range 10) [2, 2]).map (fun p => p.2.length)).sum = 10 := by
  have h := C5_uniform_fairness 10 3 0 (List.range 10) (by decide) (by decide) (by decide)
  exact ⟨⟨by decide, by decide, by decide⟩, h.1, h.2.1, h.2.2.1, h.2.2.2.1, h.2.2.2.2⟩

/-- Claim C6, counterexample: an identity whose `power` key is missing does
NOT complete the pass with power 0 — `agent['power']` raises `KeyError`,
which `except (ValueError, TypeError)` does not catch, so `imagineaclspecial`
fails.  At the concrete input (no files, one agent with the key missing) the
call returns the `KeyError` instead of the seeded map that clamping to 0
would produce. -/
theorem C6_counterexample :
    imagineaclspecialRaw ([] : List (ℕ × String)) [⟨"sagent0", PowerField.missing⟩]
        (fun _ => []) = Except.error "KeyError: power"
    ∧ imagineaclspecialRaw ([] : List (ℕ × String)) [⟨"sagent0", PowerField.missing⟩]
        (fun _ => []) ≠ Except.ok (seedAccessControl ([] : List (ℕ × String))) := by
  refine ⟨rfl, ?_⟩
  intro h
  rw [show imagineaclspecialRaw ([] : List (ℕ × String)) [⟨"sagent0", PowerField.missing⟩]
      (fun _ => [])
      = (Except.error "KeyError: power" : Except String (List (String × List String)))
    from rfl] at h
  exact Except.noConfusion h

/-- Claim C6 (amended): an identity whose `power` field is present but
unparsable as an integer (`int()` raising `ValueError` or `TypeError`, the
caught branch) is treated as power 0: it is granted no items, its step
returns the map unchanged, and the pass completes — processing it is the
same as not processing it at all.  An identity whose `power` key is missing
instead fails its step with the uncaught `KeyError`. -/
theorem C6_power_clamped (a : RawAgent) (ha : a.power = PowerField.unparsable)
    (files : List (β × String)) (sample : RawAgent → List (β × String))
    (agents : List RawAgent) :
    readPower a.power = Except.ok 0
    ∧ (∀ acm, agentStepRaw files sample acm a = Except.ok acm)
    ∧ imagineaclspecialRaw files (a :: agents) sample
        = imagineaclspecialRaw files agents sample
    ∧ (∀ (b : RawAgent) acm, b.power = PowerField.missing →
        agentStepRaw files sample acm b = Except.error "KeyError: power") := by
  have h1 : readPower a.power = Except.ok 0 := by
    rw [ha]
    rfl
  have h2 : ∀ acm, agentStepRaw files sample acm a = Except.ok acm := by
    intro acm
    simp [agentStepRaw, h1, numFilesToAccess_zero]
  refine ⟨h1, h2, ?_, ?_⟩
  · unfold imagineaclspecialRaw
    simp only [aclFoldRaw, h2]
  · intro b acm hb
    simp [agentStepRaw, hb, readPower]

theorem C6_power_clamped_witness :
    (RawAgent.power ⟨"sagent0", PowerField.unparsable⟩ = PowerField.unparsable)
    ∧ readPower (RawAgent.power ⟨"sagent0", PowerField.unparsable⟩) = Except.ok 0
    ∧ (∀ acm, agentStepRaw ([] : List (ℕ × String)) (fun _ => []) acm
        ⟨"sagent0", PowerField.unparsable⟩ = Except.ok acm)
    ∧ imagineaclspecialRaw ([] : List (ℕ × String)) [⟨"sagent0", PowerField.unparsable⟩]
        (fun _ => [])
        = imagineaclspecialRaw ([] : List (ℕ × String)) [] (fun _ => [])
    ∧ (∀ (b : RawAgent) acm, b.power = PowerField.missing →
        agentStepRaw ([] : List (ℕ × String)) (fun _ => []) acm b
          = Except.error "KeyError: power") :=
  ⟨rfl, C6_power_clamped ⟨"sagent0", PowerField.unparsable⟩ rfl [] (fun _ => []) []⟩

/-- Claim C7: after the regular-identity grant pass runs with at least one
regular identity, every file mapping's destination key holds a non-empty
grant list containing a regular identity — regardless of what the power pass
granted (`acm` is arbitrary).  The hypotheses record the contract of
`random.randint(1, len(web_ids))` followed by `random.sample(web_ids, r)`:
each drawn id list is non-empty, no longer than `web_ids`, duplicate-free and
drawn from `web_ids`. -/
theorem C7_grant_completeness (web_ids : List String) (mappings : List (β × String))
    (sampleIds : β × String → List String) (acm : List (String × List String))
    (hw : web_ids ≠ [])
    (hlen : ∀ sd, 1 ≤ (sampleIds sd).length ∧ (sampleIds sd).length ≤ web_ids.length)
    (hnd : ∀ sd, (sampleIds sd).Nodup)
    (hsub : ∀ sd, ∀ x ∈ sampleIds sd, x ∈ web_ids) :
    ∀ sd ∈ mappings, ∃ l, acLookup (grantRegular mappings sampleIds acm) sd.2 = some l
      ∧ l ≠ [] ∧ ∃ w ∈ web_ids, w ∈ l := by
  intro sd hsd
  have hne : sampleIds sd ≠ [] := by
    have h := (hlen sd).1
    intro hh
    rw [hh] at h
    simp at h
  rcases List.exists_mem_of_ne_nil _ hne with ⟨w, hwmem⟩
  rcases grantRegular_complete_aux mappings sampleIds acm sd hsd w hwmem with ⟨l, hl, hwl⟩
  refine ⟨l, hl, ?_, ⟨w, hsub sd w hwmem, hwl⟩⟩
  intro hh
  rw [hh] at hwl
  simp at hwl

theorem C7_grant_completeness_witness :
    ((["agent0"] : List String) ≠ []
      ∧ (∀ sd : ℕ × String, 1 ≤ ((fun _ => ["agent0"]) sd : List String).length
          ∧ ((fun _ => ["agent0"]) sd : List String).length ≤ (["agent0"] : List String).length)
      ∧ (∀ sd : ℕ × String, ((fun _ => ["agent0"]) sd : List String).Nodup)
      ∧ (∀ sd : ℕ × String, ∀ x ∈ ((fun _ => ["agent0"]) sd : List String),
          x ∈ (["agent0"] : List String)))
    ∧ ∀ sd ∈ [((0 : ℕ), "d1")],
        ∃ l, acLookup (grantRegular [((0 : ℕ), "d1")] (fun _ => ["agent0"]) []) sd.2 = some l
          ∧ l ≠ [] ∧ ∃ w ∈ (["agent0"] : List String), w ∈ l := by
  refine ⟨⟨by simp, fun sd => ⟨by simp, by simp⟩, fun sd => by simp, fun sd x hx => hx⟩, ?_⟩
  exact C7_grant_completeness ["agent0"] [((0 : ℕ), "d1")] (fun _ => ["agent0"]) []
    (by simp) (fun sd => ⟨by simp, by simp⟩) (fun sd => by simp) (fun sd x hx => hx)

/-- Claim C8: any strategy name outside uniform/pareto/zipf makes
`distribute_pods_to_servers` and `distribute_files_to_pods` fail with the
`Unknown distribution strategy` error (a raised `ValueError`, embedded as
`Except.error`), with no partial result and no internal retry. -/
theorem C8_unknown_strategy (samples : List ℝ) (alpha : ℝ) (ns pps : ℕ) (mp mf : ℤ)
    (files : List β) (pcs : List ℕ) (strategy : String)
    (h1 : strategy ≠ "uniform") (h2 : strategy ≠ "pareto") (h3 : strategy ≠ "zipf") :
    distribute_pods_to_servers samples ns pps strategy alpha mp
        = Except.error ("Unknown distribution strategy: " ++ strategy)
    ∧ distribute_files_to_pods samples alpha files pcs strategy mf
        = Except.error ("Unknown distribution strategy: " ++ strategy) := by
  constructor
  · unfold distribute_pods_to_servers
    rw [if_neg h1, if_neg h2, if_neg h3]
  · unfold distribute_files_to_pods
    rw [if_neg h1, if_neg h2, if_neg h3]

theorem C8_unknown_strategy_witness :
    ("gaussian" ≠ "uniform" ∧ "gaussian" ≠ "pareto" ∧ "gaussian" ≠ "zipf")
    ∧ distribute_pods_to_servers [] 2 2 "gaussian" 1 0
        = Except.error ("Unknown distribution strategy: " ++ "gaussian")
    ∧ distribute_files_to_pods [] 1 ([] : List ℕ) [] "gaussian" 0
        = Except.error ("Unknown distribution strategy: " ++ "gaussian") := by
  have h := C8_unknown_strategy [] 1 2 2 0 0 ([] : List ℕ) [] "gaussian"
    (by decide) (by decide) (by decide)
  exact ⟨⟨by decide, by decide, by decide⟩, h.1, h.2⟩

/-- Claim C9: the statistics summarizer applied to an empty assignment
returns all-zero statistics without failing: every `min`/`max` over an empty
collection and every division by a zero length is guarded, so the error
branch of the fallible python `min`/`max` is never taken. -/
theorem C9_empty_stats :
    get_distribution_stats ([] : List ((ℕ × ℕ) × List ℕ)) = Except.ok zeroStats := rfl

/-- Claim C10: throughout both grant passes the key set of the access-control
map is exactly the set of destination paths of the input file mappings: the
seeding loop creates precisely those keys (with empty grant lists), the
power pass and the regular pass preserve the key set, and both passes only
extend per-item grant lists (every previously present list survives as a
sublist), never removing a key or clearing a grant. -/
theorem C10_grant_map_domain (files : List (β × String)) (agents : List Agent)
    (sample : Agent → List (β × String)) (sampleIds : β × String → List String) :
    (∀ d, d ∈ (seedAccessControl files).map Prod.fst ↔ d ∈ files.map (fun sd => sd.2))
    ∧ (∀ d l, acLookup (seedAccessControl files) d = some l → l = [])
    ∧ (∀ d, d ∈ (imagineaclspecial files agents sample).map Prod.fst
        ↔ d ∈ files.map (fun sd => sd.2))
    ∧ (∀ d, d ∈ (grantRegular files sampleIds (imagineaclspecial files agents sample)).map
          Prod.fst ↔ d ∈ files.map (fun sd => sd.2))
    ∧ (∀ k l, acLookup (seedAccessControl files) k = some l →
        ∃ l', acLookup (imagineaclspecial files agents sample) k = some l' ∧ l.Sublist l')
    ∧ (∀ acm k l, acLookup acm k = some l →
        ∃ l', acLookup (grantRegular files sampleIds acm) k = some l' ∧ l.Sublist l') := by
  refine ⟨?_, ?_, ?_, ?_, ?_, ?_⟩
  · intro d
    unfold seedAccessControl
    rw [mem_keys_seedFold files d []]
    simp
  · exact seedAccessControl_empty_values files
  · exact mem_keys_imagineacl files agents sample
  · intro d
    rw [mem_keys_grantRegular files sampleIds d, mem_keys_imagineacl files agents sample d]
    tauto
  · intro k l h
    exact agentsFold_sublist files sample agents k (seedAccessControl files) l h
  · intro acm k l h
    exact grantRegular_sublist files sampleIds k acm l h

end Espresso
